import Mathlib

/-!
Verification of the `bok` content-addressed hash-chained ledger.

The Rust source is shallowly embedded: Rust `String` values are represented by
their UTF-8 byte sequences (`List Nat`, each element `< 256`), machine integers
by `Nat`/`Int` with explicit reductions modulo powers of two, fallible
operations by `Except`, and the `Write`/`Read` traits by explicit state
threading.  External library behaviour (chrono dates, the flate2 gzip layer,
the sha2 digest) is modelled from the libraries' documented contracts; all
repository code is translated directly from the source files.
-/

namespace Bok

/-! ## Little-endian byte encoding of unsigned integers -/

/-- `w`-byte little-endian encoding of `v` (modulo `256 ^ w`), as produced by
the Rust `to_le_bytes` calls in `Entry::serialize` / `EntryLine::serialize`. -/
def leBytes : Nat → Nat → List Nat
  | 0, _ => []
  | w + 1, v => v % 256 :: leBytes w (v / 256)

/-- Value of a little-endian byte list, as computed by `from_le_bytes`. -/
def leVal : List Nat → Nat
  | [] => 0
  | b :: bs => b + 256 * leVal bs

@[simp] theorem leBytes_length (w v : Nat) : (leBytes w v).length = w := by
  induction w generalizing v with
  | zero => simp [leBytes]
  | succ w ih => simp [leBytes, ih]

theorem leVal_leBytes (w v : Nat) : leVal (leBytes w v) = v % 256 ^ w := by
  induction w generalizing v with
  | zero => simp [leBytes, leVal, Nat.mod_one]
  | succ w ih =>
    simp only [leBytes, leVal, ih]
    rw [pow_succ', Nat.mod_mul]

theorem leVal_leBytes_of_lt {w v : Nat} (h : v < 256 ^ w) :
    leVal (leBytes w v) = v := by
  rw [leVal_leBytes, Nat.mod_eq_of_lt h]

theorem leBytes_lt (w v : Nat) : ∀ b ∈ leBytes w v, b < 256 := by
  induction w generalizing v with
  | zero => simp [leBytes]
  | succ w ih =>
    intro b hb
    simp only [leBytes, List.mem_cons] at hb
    rcases hb with h | h
    · omega
    · exact ih (v / 256) b h

/-! ## Two's-complement encoding of signed machine integers -/

/-- The unsigned `w`-byte value that Rust's `to_le_bytes` writes for a signed
integer `i` (`i64::to_le_bytes` / `i32::to_le_bytes`). -/
def toTwos (w : Nat) (i : Int) : Nat := (i % (2 ^ (8 * w))).toNat

/-- The signed integer read back by `from_le_bytes` from an unsigned value. -/
def fromTwos (w : Nat) (v : Nat) : Int :=
  if v < 2 ^ (8 * w - 1) then (v : Int) else (v : Int) - 2 ^ (8 * w)

theorem toTwos_lt_64 (i : Int) : toTwos 8 i < 2 ^ 64 := by
  unfold toTwos; norm_num; omega

theorem toTwos_lt_32 (i : Int) : toTwos 4 i < 2 ^ 32 := by
  unfold toTwos; norm_num; omega

theorem fromTwos_toTwos_64 {i : Int} (hlo : -(2 ^ 63) ≤ i) (hhi : i < 2 ^ 63) :
    fromTwos 8 (toTwos 8 i) = i := by
  unfold fromTwos toTwos; norm_num; omega

theorem fromTwos_toTwos_32 {i : Int} (hlo : -(2 ^ 31) ≤ i) (hhi : i < 2 ^ 31) :
    fromTwos 4 (toTwos 4 i) = i := by
  unfold fromTwos toTwos; norm_num; omega

/-! ## UTF-8 validity

Rust `String` values are UTF-8 byte sequences; `String::from_utf8` accepts
exactly the byte sequences matched by the RFC 3629 grammar below.  We model a
Rust `String` as its byte sequence, so decoding validates with `utf8Valid`. -/

/-- A UTF-8 continuation byte (`0x80..=0xBF`). -/
def isCont (b : Nat) : Bool := 0x80 ≤ b && b ≤ 0xBF

/-- Consume the remainder of one UTF-8 scalar whose lead byte is `b`
(RFC 3629 table); returns the bytes after the scalar, or `none` if invalid. -/
def utf8Tail (b : Nat) (rest : List Nat) : Option (List Nat) :=
  if b ≤ 0x7F then some rest
  else if 0xC2 ≤ b && b ≤ 0xDF then
    match rest with
    | c1 :: r => if isCont c1 then some r else none
    | [] => none
  else if b = 0xE0 then
    match rest with
    | c1 :: c2 :: r =>
        if (0xA0 ≤ c1 && c1 ≤ 0xBF) && isCont c2 then some r else none
    | _ => none
  else if (0xE1 ≤ b && b ≤ 0xEC) || b = 0xEE || b = 0xEF then
    match rest with
    | c1 :: c2 :: r => if isCont c1 && isCont c2 then some r else none
    | _ => none
  else if b = 0xED then
    match rest with
    | c1 :: c2 :: r =>
        if (0x80 ≤ c1 && c1 ≤ 0x9F) && isCont c2 then some r else none
    | _ => none
  else if b = 0xF0 then
    match rest with
    | c1 :: c2 :: c3 :: r =>
        if (0x90 ≤ c1 && c1 ≤ 0xBF) && (isCont c2 && isCont c3) then some r else none
    | _ => none
  else if 0xF1 ≤ b && b ≤ 0xF3 then
    match rest with
    | c1 :: c2 :: c3 :: r =>
        if isCont c1 && (isCont c2 && isCont c3) then some r else none
    | _ => none
  else if b = 0xF4 then
    match rest with
    | c1 :: c2 :: c3 :: r =>
        if (0x80 ≤ c1 && c1 ≤ 0x8F) && (isCont c2 && isCont c3) then some r else none
    | _ => none
  else none

theorem utf8Tail_length_le {b : Nat} {rest r : List Nat}
    (h : utf8Tail b rest = some r) : r.length ≤ rest.length := by
  unfold utf8Tail at h
  repeat' split at h
  all_goals try (injection h with h; subst h; (try simp only [List.length_cons]); omega)
  all_goals cases h

/-- Scalar-by-scalar UTF-8 validation; `fuel` bounds the number of scalars
(each scalar consumes at least one byte, so `l.length` is always enough). -/
def utf8ValidGo (fuel : Nat) (l : List Nat) : Bool :=
  match l, fuel with
  | [], _ => true
  | _ :: _, 0 => false
  | b :: rest, fuel + 1 =>
    match utf8Tail b rest with
    | some r => utf8ValidGo fuel r
    | none => false

/-- RFC 3629 well-formedness of a UTF-8 byte sequence. -/
def utf8Valid (l : List Nat) : Bool := utf8ValidGo l.length l

theorem utf8ValidGo_irrel :
    ∀ (f1 : Nat) (l : List Nat) (f2 : Nat), l.length ≤ f1 → l.length ≤ f2 →
      utf8ValidGo f1 l = utf8ValidGo f2 l := by
  intro f1
  induction f1 with
  | zero =>
    intro l f2 h1 h2
    cases l with
    | nil => cases f2 <;> rfl
    | cons b rest => simp at h1
  | succ f1 ih =>
    intro l f2 h1 h2
    cases l with
    | nil => cases f2 <;> rfl
    | cons b rest =>
      simp only [List.length_cons] at h1 h2
      cases f2 with
      | zero => omega
      | succ f2 =>
        show (match utf8Tail b rest with
              | some r => utf8ValidGo f1 r
              | none => false)
           = (match utf8Tail b rest with
              | some r => utf8ValidGo f2 r
              | none => false)
        cases htail : utf8Tail b rest with
        | none => rfl
        | some r =>
          have hr := utf8Tail_length_le htail
          exact ih r f2 (by omega) (by omega)

theorem utf8Valid_cons_step {b : Nat} {rest r : List Nat}
    (htail : utf8Tail b rest = some r) : utf8Valid (b :: rest) = utf8Valid r := by
  unfold utf8Valid
  simp only [List.length_cons]
  show (match utf8Tail b rest with
        | some x => utf8ValidGo rest.length x
        | none => false) = utf8ValidGo r.length r
  rw [htail]
  exact utf8ValidGo_irrel rest.length r r.length (utf8Tail_length_le htail) le_rfl

/-- ASCII byte sequences are valid UTF-8. -/
theorem utf8Valid_of_ascii : ∀ {l : List Nat}, (∀ b ∈ l, b < 0x80) → utf8Valid l = true
  | [], _ => rfl
  | b :: rest, h => by
    have hb : b < 0x80 := h b (List.mem_cons_self b rest)
    have hrest : ∀ x ∈ rest, x < 0x80 := fun x hx => h x (List.mem_cons_of_mem b hx)
    have htail : utf8Tail b rest = some rest := by
      unfold utf8Tail; rw [if_pos (by omega)]
    rw [utf8Valid_cons_step htail]
    exact utf8Valid_of_ascii hrest

/-! ## Hex encoding (the `hex` crate's lowercase `encode_hex`) -/

/-- Lowercase hexadecimal digit as an ASCII byte. -/
def hexDigit (n : Nat) : Nat := if n < 10 then 48 + n else 87 + n

/-- Lowercase hex encoding of a byte list, as produced by
`hash.finalize().encode_hex()` in `Entry::serialize`. -/
def bytesToHex (bs : List Nat) : List Nat :=
  (bs.map fun b => [hexDigit (b / 16), hexDigit (b % 16)]).flatten

theorem bytesToHex_length (bs : List Nat) : (bytesToHex bs).length = 2 * bs.length := by
  induction bs with
  | nil => rfl
  | cons b rest ih =>
    simp only [bytesToHex, List.map_cons, List.flatten_cons, List.length_append,
      List.length_cons, List.length_nil] at ih ⊢
    omega

theorem hexDigit_ascii {n : Nat} (h : n < 16) : hexDigit n < 0x80 := by
  unfold hexDigit; split <;> omega

theorem bytesToHex_ascii {bs : List Nat} (h : ∀ b ∈ bs, b < 256) :
    ∀ c ∈ bytesToHex bs, c < 0x80 := by
  intro c hc
  simp only [bytesToHex, List.mem_flatten, List.mem_map] at hc
  obtain ⟨l, ⟨b, hb, rfl⟩, hcl⟩ := hc
  have hb256 : b < 256 := h b hb
  simp only [List.mem_cons, List.not_mem_nil, or_false] at hcl
  rcases hcl with rfl | rfl
  · exact hexDigit_ascii (by omega)
  · exact hexDigit_ascii (by omega)

/-! ## SHA-256 (FIPS 180-4), the `sha2::Sha256` digest

Words are `Nat` values kept below `2 ^ 32` by explicit masking. -/

/-- Right rotation of a 32-bit word. -/
def rotr (n x : Nat) : Nat := ((x >>> n) ||| (x <<< (32 - n))) &&& 0xFFFFFFFF

def shaCh (x y z : Nat) : Nat := (x &&& y) ^^^ ((x ^^^ 0xFFFFFFFF) &&& z)

def shaMaj (x y z : Nat) : Nat := (x &&& y) ^^^ (x &&& z) ^^^ (y &&& z)

def bigSigma0 (x : Nat) : Nat := rotr 2 x ^^^ rotr 13 x ^^^ rotr 22 x

def bigSigma1 (x : Nat) : Nat := rotr 6 x ^^^ rotr 11 x ^^^ rotr 25 x

def smallSigma0 (x : Nat) : Nat := rotr 7 x ^^^ rotr 18 x ^^^ (x >>> 3)

def smallSigma1 (x : Nat) : Nat := rotr 17 x ^^^ rotr 19 x ^^^ (x >>> 10)

/-- The SHA-256 round constants. -/
def shaK : List Nat :=
  [1116352408, 1899447441, 3049323471, 3921009573, 961987163, 1508970993,
   2453635748, 2870763221, 3624381080, 310598401, 607225278, 1426881987,
   1925078388, 2162078206, 2614888103, 3248222580, 3835390401, 4022224774,
   264347078, 604807628, 770255983, 1249150122, 1555081692, 1996064986,
   2554220882, 2821834349, 2952996808, 3210313671, 3336571891, 3584528711,
   113926993, 338241895, 666307205, 773529912, 1294757372, 1396182291,
   1695183700, 1986661051, 2177026350, 2456956037, 2730485921, 2820302411,
   3259730800, 3345764771, 3516065817, 3600352804, 4094571909, 275423344,
   430227734, 506948616, 659060556, 883997877, 958139571, 1322822218,
   1537002063, 1747873779, 1955562222, 2024104815, 2227730452, 2361852424,
   2428436474, 2756734187, 3204031479, 3329325298]

/-- The eight 32-bit working variables of the SHA-256 state. -/
structure Hash8 where
  a : Nat
  b : Nat
  c : Nat
  d : Nat
  e : Nat
  f : Nat
  g : Nat
  h : Nat

/-- The SHA-256 initial hash value. -/
def shaInit : Hash8 :=
  ⟨0x6a09e667, 0xbb67ae85, 0x3c6ef372, 0xa54ff53a,
   0x510e527f, 0x9b05688c, 0x1f83d9ab, 0x5be0cd19⟩

/-- Big-endian bytes of a 32-bit word. -/
def beBytes4 (w : Nat) : List Nat :=
  [(w >>> 24) &&& 255, (w >>> 16) &&& 255, (w >>> 8) &&& 255, w &&& 255]

/-- Big-endian bytes of a 64-bit word (the padded bit length). -/
def beBytes8 (w : Nat) : List Nat :=
  [(w >>> 56) &&& 255, (w >>> 48) &&& 255, (w >>> 40) &&& 255, (w >>> 32) &&& 255,
   (w >>> 24) &&& 255, (w >>> 16) &&& 255, (w >>> 8) &&& 255, w &&& 255]

/-- Group a 64-byte block into sixteen big-endian 32-bit words. -/
def beWords : List Nat → List Nat
  | b0 :: b1 :: b2 :: b3 :: rest =>
    ((b0 <<< 24) ||| (b1 <<< 16) ||| (b2 <<< 8) ||| b3) :: beWords rest
  | _ => []

/-- One message-schedule extension step: appends `W[t]` for `t = acc.length`. -/
def schedStep (acc : List Nat) : List Nat :=
  let n := acc.length
  let w16 := acc.getD (n - 16) 0
  let w15 := acc.getD (n - 15) 0
  let w7 := acc.getD (n - 7) 0
  let w2 := acc.getD (n - 2) 0
  acc ++ [(w16 + smallSigma0 w15 + w7 + smallSigma1 w2) &&& 0xFFFFFFFF]

/-- The 64-entry SHA-256 message schedule of a block. -/
def schedule (block : List Nat) : List Nat :=
  (List.range 48).foldl (fun acc _ => schedStep acc) (beWords block)

/-- One SHA-256 round; `wk` is the pair `(W[t], K[t])`. -/
def shaRound (st : Hash8) (wk : Nat × Nat) : Hash8 :=
  let t1 := st.h + bigSigma1 st.e + shaCh st.e st.f st.g + wk.2 + wk.1
  let t2 := bigSigma0 st.a + shaMaj st.a st.b st.c
  ⟨(t1 + t2) &&& 0xFFFFFFFF, st.a, st.b, st.c,
   (st.d + t1) &&& 0xFFFFFFFF, st.e, st.f, st.g⟩

/-- Process one 64-byte block. -/
def compressBlock (st : Hash8) (block : List Nat) : Hash8 :=
  let r := ((schedule block).zip shaK).foldl shaRound st
  ⟨(st.a + r.a) &&& 0xFFFFFFFF, (st.b + r.b) &&& 0xFFFFFFFF,
   (st.c + r.c) &&& 0xFFFFFFFF, (st.d + r.d) &&& 0xFFFFFFFF,
   (st.e + r.e) &&& 0xFFFFFFFF, (st.f + r.f) &&& 0xFFFFFFFF,
   (st.g + r.g) &&& 0xFFFFFFFF, (st.h + r.h) &&& 0xFFFFFFFF⟩

/-- Split a byte list into 64-byte chunks; `fuel` bounds the chunk count
(`l.length` always suffices since every chunk is nonempty). -/
def chunk64Go : Nat → List Nat → List (List Nat)
  | _, [] => []
  | 0, _ :: _ => []
  | fuel + 1, b :: rest => (b :: rest).take 64 :: chunk64Go fuel ((b :: rest).drop 64)

/-- Split a byte list into 64-byte chunks. -/
def chunk64 (l : List Nat) : List (List Nat) := chunk64Go l.length l

/-- FIPS 180-4 padding: `0x80`, zeros to 56 mod 64, then the bit length. -/
def shaPad (msg : List Nat) : List Nat :=
  msg ++ 0x80 :: List.replicate ((119 - msg.length % 64) % 64) 0
      ++ beBytes8 (8 * msg.length)

/-- Serialize the final state as 32 big-endian bytes. -/
def shaOut (fin : Hash8) : List Nat :=
  beBytes4 fin.a ++ beBytes4 fin.b ++ beBytes4 fin.c ++ beBytes4 fin.d ++
  beBytes4 fin.e ++ beBytes4 fin.f ++ beBytes4 fin.g ++ beBytes4 fin.h

/-- The SHA-256 digest (32 bytes) of a byte sequence. -/
def sha256 (msg : List Nat) : List Nat :=
  shaOut ((chunk64 (shaPad msg)).foldl compressBlock shaInit)

/-- The lowercase-hex SHA-256 digest, as returned by `Entry::serialize`. -/
def sha256hex (msg : List Nat) : List Nat := bytesToHex (sha256 msg)

theorem sha256_length (msg : List Nat) : (sha256 msg).length = 32 := by
  simp [sha256, shaOut, beBytes4]

theorem beBytes4_lt (w : Nat) : ∀ b ∈ beBytes4 w, b < 256 := by
  intro b hb
  simp only [beBytes4, List.mem_cons, List.not_mem_nil, or_false] at hb
  rcases hb with rfl | rfl | rfl | rfl <;> exact Nat.lt_succ_of_le Nat.and_le_right

theorem sha256_bytes_lt (msg : List Nat) : ∀ b ∈ sha256 msg, b < 256 := by
  intro b hb
  simp only [sha256, shaOut, List.mem_append, or_assoc] at hb
  rcases hb with h | h | h | h | h | h | h | h <;> exact beBytes4_lt _ b h

theorem sha256hex_length (msg : List Nat) : (sha256hex msg).length = 64 := by
  rw [sha256hex, bytesToHex_length, sha256_length]

theorem sha256hex_ascii (msg : List Nat) : ∀ c ∈ sha256hex msg, c < 0x80 :=
  bytesToHex_ascii (sha256_bytes_lt msg)

theorem sha256hex_utf8Valid (msg : List Nat) : utf8Valid (sha256hex msg) = true :=
  utf8Valid_of_ascii (sha256hex_ascii msg)

/-! ## The gzip layer

Modelled from the documented behaviour of the external `flate2` crate as used
in `Entry::serialize` / `Entry::deserialize`: `GzEncoder` emits a 10-byte gzip
header (magic `0x1f 0x8b`, method `8` = deflate, no flags, zero mtime, OS byte
`0xff`), the compressed payload, and an 8-byte CRC32/ISIZE trailer;
`GzDecoder::header()` returns `Some` exactly when the stream begins with a
parseable gzip header, and decoding inverts encoding.  The deflate body is
modelled as the identity transformation on the payload bytes — the claims under
verification depend only on the layer's shape (header detection and lossless
inversion), never on the compressed bit patterns; the CRC32 field is modelled
as zero. -/

/-- The gzip member header written by `GzEncoder::new(_, Compression::default())`. -/
def gzipHeaderBytes : List Nat :=
  [0x1f, 0x8b, 0x08, 0x00, 0x00, 0x00, 0x00, 0x00, 0x00, 0xff]

/-- The full gzip stream for a payload (header, body, CRC32/ISIZE trailer). -/
def gzipCompress (data : List Nat) : List Nat :=
  gzipHeaderBytes ++ data ++ (leBytes 4 0 ++ leBytes 4 data.length)

/-- After the leading magic byte: the second magic byte, the compression
method, and the remaining seven header bytes. -/
def hasGzipTail : List Nat → Bool
  | m2 :: cm :: r => m2 = 0x8b && cm = 8 && 7 ≤ r.length
  | _ => false

/-- Whether `GzDecoder::header()` parses a gzip header at the stream start
(magic bytes `0x1f 0x8b`, compression method `8`, a full 10-byte header). -/
def hasGzipHeader : List Nat → Bool
  | [] => false
  | m1 :: rest => m1 = 0x1f && hasGzipTail rest

/-- Recover the payload of a gzip stream (drop the header and trailer). -/
def gzipDecompress (bs : List Nat) : List Nat :=
  (bs.drop 10).take (bs.length - 18)

theorem hasGzipHeader_gzipCompress (data : List Nat) :
    hasGzipHeader (gzipCompress data) = true := by
  unfold gzipCompress gzipHeaderBytes
  simp [hasGzipHeader, hasGzipTail, List.length_append]

theorem gzipDecompress_gzipCompress (data : List Nat) :
    gzipDecompress (gzipCompress data) = data := by
  unfold gzipDecompress gzipCompress gzipHeaderBytes
  simp [List.drop_append_eq_append_drop, List.take_append_eq_append_take]

theorem gzipCompress_length (data : List Nat) :
    (gzipCompress data).length = data.length + 18 := by
  simp [gzipCompress, gzipHeaderBytes]

/-! ## Errors

`std::io::Error` values, by kind (`std::io::ErrorKind`) and message. -/

inductive ErrKind where
  | unexpectedEof
  | invalidData
  | invalidInput
  | notFound
  | tooManyLinks
  | directoryNotEmpty
  | notADirectory
  | writeZero
  | otherErr
deriving DecidableEq

structure IOError where
  kind : ErrKind
  msg : String
deriving DecidableEq

/-! ## Data model (`src/entry/entry_struct.rs`, `src/entry/line.rs`)

chrono values are embedded by the quantities the codec reads and writes:
`DateTime<Utc>` by its whole-second Unix timestamp (`timestamp()`; entries are
constructed with `with_nanosecond(0)` and re-read with
`DateTime::from_timestamp(secs, 0)`, so the sub-second part is always zero) and
`NaiveDate` by `num_days_from_ce()`.  The companion range constants are
chrono's documented `MIN_UTC`/`MAX_UTC` timestamps and the
`num_days_from_ce` values of `NaiveDate::MIN`/`NaiveDate::MAX`. -/

/-- `chrono::DateTime<Utc>` restricted to whole seconds. -/
structure DT where
  epochSecs : Int
deriving DecidableEq

/-- `chrono::NaiveDate`, as its `num_days_from_ce()` day count. -/
structure ND where
  daysFromCE : Int
deriving DecidableEq

/-- Smallest timestamp accepted by `DateTime::from_timestamp` (chrono `MIN_UTC`). -/
def tsMin : Int := -8334632851200

/-- Largest timestamp accepted by `DateTime::from_timestamp` (chrono `MAX_UTC`). -/
def tsMax : Int := 8210298412799

/-- `num_days_from_ce()` of `NaiveDate::MIN` (January 1, -262144). -/
def daysMin : Int := -95746495

/-- `num_days_from_ce()` of `NaiveDate::MAX` (December 31, 262143). -/
def daysMax : Int := 95745764

/-- `chrono::DateTime::from_timestamp(secs, 0)`: `none` outside chrono's range. -/
def dtFromTimestamp (secs : Int) : Option DT :=
  if tsMin ≤ secs ∧ secs ≤ tsMax then some ⟨secs⟩ else none

/-- `chrono::NaiveDate::from_num_days_from_ce_opt`: `none` outside the range. -/
def ndFromDays (days : Int) : Option ND :=
  if daysMin ≤ days ∧ days ≤ daysMax then some ⟨days⟩ else none

/-- `Side` (`src/entry/line.rs`). -/
inductive Side where
  | Debit
  | Credit
deriving DecidableEq

/-- `EntryLine` (`src/entry/line.rs`).  `account` and `description` are Rust
`String`s, embedded as their UTF-8 bytes; `amount` is a `usize`. -/
structure EntryLine where
  account : List Nat
  amount : Nat
  side : Side
  description : Option (List Nat)
deriving DecidableEq

/-- `Entry` (`src/entry/entry_struct.rs`): the `Entry::Entry` record variant
and the `Entry::Origin` chain head. -/
inductive Entry where
  | Origin (year : Nat) (timestamp : DT)
  | Record (timestamp : DT) (eventDate : ND) (name : List Nat)
      (description : List Nat) (lines : List EntryLine) (previousEntry : List Nat)
deriving DecidableEq

/-- A byte sequence representing a Rust `String`: valid UTF-8 (hence every
element is an actual byte) whose length fits the codec's `u32` length prefix. -/
def wfStr (s : List Nat) : Prop := utf8Valid s = true ∧ s.length < 2 ^ 32

instance (s : List Nat) : Decidable (wfStr s) :=
  inferInstanceAs (Decidable (utf8Valid s = true ∧ s.length < 2 ^ 32))

/-- A representable `chrono` timestamp. -/
def wfTs (t : DT) : Prop := tsMin ≤ t.epochSecs ∧ t.epochSecs ≤ tsMax

instance (t : DT) : Decidable (wfTs t) :=
  inferInstanceAs (Decidable (tsMin ≤ t.epochSecs ∧ t.epochSecs ≤ tsMax))

/-- A representable `chrono` date. -/
def wfDate (d : ND) : Prop := daysMin ≤ d.daysFromCE ∧ d.daysFromCE ≤ daysMax

instance (d : ND) : Decidable (wfDate d) :=
  inferInstanceAs (Decidable (daysMin ≤ d.daysFromCE ∧ d.daysFromCE ≤ daysMax))

/-- A valid `EntryLine` value: real Rust strings and a 64-bit `usize` amount. -/
def EntryLine.wf (l : EntryLine) : Prop :=
  wfStr l.account ∧ l.amount < 2 ^ 64 ∧
    (match l.description with
     | some d => wfStr d
     | none => True)

instance : (l : EntryLine) → Decidable l.wf
  | ⟨a, m, _, some d⟩ =>
    inferInstanceAs (Decidable (wfStr a ∧ m < 2 ^ 64 ∧ wfStr d))
  | ⟨a, m, _, none⟩ =>
    inferInstanceAs (Decidable (wfStr a ∧ m < 2 ^ 64 ∧ True))

/-- A valid `Entry` value: representable chrono values, real Rust strings,
a `u64` year, fewer than `2 ^ 32` lines, and a 64-byte `previous_entry`
hash string (64 lowercase-hex characters is what `add_entry` stores). -/
def Entry.wf : Entry → Prop
  | .Origin year ts => year < 2 ^ 64 ∧ wfTs ts
  | .Record ts date name descr lines prev =>
      wfTs ts ∧ wfDate date ∧ wfStr name ∧ wfStr descr ∧
      lines.length < 2 ^ 32 ∧ (∀ l ∈ lines, l.wf) ∧
      prev.length = 64 ∧ utf8Valid prev = true

instance : (e : Entry) → Decidable e.wf
  | .Origin year ts =>
    inferInstanceAs (Decidable (year < 2 ^ 64 ∧ wfTs ts))
  | .Record ts date name descr lines prev =>
    inferInstanceAs (Decidable (wfTs ts ∧ wfDate date ∧ wfStr name ∧ wfStr descr ∧
      lines.length < 2 ^ 32 ∧ (∀ l ∈ lines, l.wf) ∧
      prev.length = 64 ∧ utf8Valid prev = true))

/-! ## The canonical binary encoding

The byte sequence that `EntryLine::serialize` (`src/entry/line.rs`) and
`Entry::serialize` (`src/entry/serde.rs`) feed, in order, to the tee writer
(and hence both to the digest and — through the gzip encoder — to the sink).
Each `write_all` call of the source contributes one `++` operand. -/

/-- `EntryLine::serialize`. -/
def EntryLine.encode (l : EntryLine) : List Nat :=
  leBytes 4 l.account.length ++ leBytes 8 l.amount ++
  [match l.side with | .Credit => 0x00 | .Debit => 0x01] ++
  [match l.description with | some _ => 0x01 | none => 0x00] ++
  l.account ++
  (match l.description with
   | some d => leBytes 4 d.length ++ d
   | none => [])

/-- `Entry::serialize`'s uncompressed stream (the bytes that are hashed). -/
def Entry.encode : Entry → List Nat
  | .Origin year ts =>
      [0x00] ++ leBytes 8 year ++ leBytes 8 (toTwos 8 ts.epochSecs)
  | .Record ts date name descr lines prev =>
      [0x01] ++ leBytes 4 (toTwos 4 date.daysFromCE) ++
      leBytes 8 (toTwos 8 ts.epochSecs) ++
      leBytes 4 name.length ++ leBytes 4 descr.length ++
      name ++ descr ++
      leBytes 4 lines.length ++
      (lines.map EntryLine.encode).flatten ++
      prev

/-! ## Byte-stream reading

The decoders read from an in-memory byte stream, threading the unread
remainder.  `rdBytes` is the `read_exact`-style fetch performed by the
repository's `read!` macro (`src/read.rs`): it checks that enough bytes remain
(`ErrorKind::UnexpectedEof` otherwise) before consuming; `rdString`
additionally validates UTF-8 (`ErrorKind::InvalidData` on failure), as
`String::from_utf8` does.  Error messages keep the macro's fixed prefix; the
interpolated field names are omitted. -/

def P (α : Type) : Type := List Nat → Except IOError (α × List Nat)

def pPure {α : Type} (a : α) : P α := fun inp => .ok (a, inp)

def pBind {α β : Type} (p : P α) (f : α → P β) : P β := fun inp =>
  match p inp with
  | .error e => .error e
  | .ok (a, rest) => f a rest

def pFail {α : Type} (e : IOError) : P α := fun _ => .error e

/-- Consume exactly `n` bytes, or fail with an unexpected-end-of-input error. -/
def rdBytes (n : Nat) : P (List Nat) := fun inp =>
  if n ≤ inp.length then .ok (inp.take n, inp.drop n)
  else .error ⟨.unexpectedEof, "Insufficient bytes"⟩

/-- Read a `w`-byte little-endian unsigned integer. -/
def rdUInt (w : Nat) : P Nat :=
  pBind (rdBytes w) fun bs => pPure (leVal bs)

/-- Read a `w`-byte little-endian two's-complement signed integer. -/
def rdInt (w : Nat) : P Int :=
  pBind (rdBytes w) fun bs => pPure (fromTwos w (leVal bs))

/-- Read `n` bytes and validate them as UTF-8 (`read! ... as String`). -/
def rdString (n : Nat) : P (List Nat) :=
  pBind (rdBytes n) fun bs =>
    if utf8Valid bs then pPure bs
    else pFail ⟨.invalidData, "Failed to read string"⟩

/-- `EntryLine::deserialize` (`src/entry/line.rs`). -/
def EntryLine.deserializeP : P EntryLine :=
  pBind (rdUInt 4) fun accountLen =>
  pBind (rdUInt 8) fun amount =>
  pBind (rdUInt 1) fun sideByte =>
  pBind (match sideByte with
         | 0x00 => pPure Side.Credit
         | 0x01 => pPure Side.Debit
         | _ => pFail ⟨.invalidData, "Invalid side byte"⟩) fun side =>
  pBind (rdUInt 1) fun descFlag =>
  pBind (match descFlag with
         | 0x00 => pPure false
         | 0x01 => pPure true
         | _ => pFail ⟨.invalidData, "Invalid description flag"⟩) fun hasDescription =>
  pBind (rdString accountLen) fun account =>
  pBind (if hasDescription then
           pBind (rdUInt 4) fun descLen =>
           pBind (rdString descLen) fun d => pPure (some d)
         else pPure none) fun description =>
  pPure ⟨account, amount, side, description⟩

/-- `Option::ok_or_else` lifted into the parser: yield the value or fail. -/
def pOfOption {α : Type} (o : Option α) (err : IOError) : P α :=
  match o with
  | some x => pPure x
  | none => pFail err

/-- Run a parser `n` times (the `for _ in 0..lines_count` loop). -/
def pCount {α : Type} (p : P α) : Nat → P (List α)
  | 0 => pPure []
  | n + 1 =>
    pBind p fun a =>
    pBind (pCount p n) fun rest =>
    pPure (a :: rest)

/-- The payload decoder of `Entry::deserialize` (`src/entry/serde.rs`), applied
to the byte stream after the gzip layer has been resolved. -/
def Entry.decodeCore : P Entry :=
  pBind (rdUInt 1) fun discriminant =>
  match discriminant with
  | 0x00 =>
    pBind (rdUInt 8) fun year =>
    pBind (rdInt 8) fun epochSecs =>
    pBind (pOfOption (dtFromTimestamp epochSecs)
      ⟨.invalidData, "Invalid timestamp"⟩) fun ts =>
    pPure (.Origin year ts)
  | 0x01 =>
    pBind (rdInt 4) fun dateDays =>
    pBind (pOfOption (ndFromDays dateDays)
      ⟨.invalidData, "Invalid event date"⟩) fun eventDate =>
    pBind (rdInt 8) fun epochSecs =>
    pBind (pOfOption (dtFromTimestamp epochSecs)
      ⟨.invalidData, "Invalid timestamp"⟩) fun ts =>
    pBind (rdUInt 4) fun nameLen =>
    pBind (rdUInt 4) fun descLen =>
    pBind (rdString nameLen) fun name =>
    pBind (rdString descLen) fun descr =>
    pBind (rdUInt 4) fun linesCount =>
    pBind (pCount EntryLine.deserializeP linesCount) fun lines =>
    pBind (rdString 64) fun prev =>
    pPure (.Record ts eventDate name descr lines prev)
  | _ => pFail ⟨.invalidData, "Unknown discriminant"⟩

/-- `Entry::deserialize` (`src/entry/serde.rs`): sniff the gzip header
(`GzDecoder::header()`); decode the decompressed stream if one is present,
otherwise rewind and decode the raw bytes. -/
def Entry.deserialize (bs : List Nat) : Except IOError Entry :=
  match Entry.decodeCore (if hasGzipHeader bs then gzipDecompress bs else bs) with
  | .ok (e, _) => .ok e
  | .error err => .error err

/-! ## Parser exactness

`PExact p bs v` packages the two directions every field read satisfies on its
encoded bytes: on a stream starting with `bs` the parser consumes exactly `bs`
and returns `v`, and on any strict prefix of `bs` it fails with an
unexpected-end-of-input error. -/

def PExact {α : Type} (p : P α) (bs : List Nat) (v : α) : Prop :=
  (∀ rest, p (bs ++ rest) = .ok (v, rest)) ∧
  (∀ k, k < bs.length → ∃ m, p (bs.take k) = .error ⟨.unexpectedEof, m⟩)

theorem pExact_pure {α : Type} (a : α) : PExact (pPure a) [] a := by
  constructor
  · intro rest; rfl
  · intro k hk; simp at hk

theorem pExact_bind {α β : Type} {p : P α} {f : α → P β} {bs cs : List Nat}
    {v : α} {w : β} (hp : PExact p bs v) (hf : PExact (f v) cs w) :
    PExact (pBind p f) (bs ++ cs) w := by
  constructor
  · intro rest
    rw [List.append_assoc]
    show (match p (bs ++ (cs ++ rest)) with
          | Except.error e => Except.error e
          | Except.ok (a, r) => f a r) = Except.ok (w, rest)
    rw [hp.1 (cs ++ rest)]
    exact hf.1 rest
  · intro k hk
    rcases le_or_lt bs.length k with hble | hblt
    · have htake : (bs ++ cs).take k = bs ++ cs.take (k - bs.length) := by
        rw [List.take_append_eq_append_take, List.take_of_length_le hble]
      have hkcs : k - bs.length < cs.length := by
        rw [List.length_append] at hk; omega
      obtain ⟨m, hm⟩ := hf.2 (k - bs.length) hkcs
      refine ⟨m, ?_⟩
      rw [htake]
      show (match p (bs ++ cs.take (k - bs.length)) with
            | Except.error e => Except.error e
            | Except.ok (a, r) => f a r) = _
      rw [hp.1 (cs.take (k - bs.length))]
      exact hm
    · have htake : (bs ++ cs).take k = bs.take k := by
        rw [List.take_append_eq_append_take,
          Nat.sub_eq_zero_of_le (le_of_lt hblt), List.take_zero, List.append_nil]
      obtain ⟨m, hm⟩ := hp.2 k hblt
      refine ⟨m, ?_⟩
      rw [htake]
      show (match p (bs.take k) with
            | Except.error e => Except.error e
            | Except.ok (a, r) => f a r) = _
      rw [hm]

theorem pExact_rdBytes {n : Nat} {bs : List Nat} (h : bs.length = n) :
    PExact (rdBytes n) bs bs := by
  constructor
  · intro rest
    unfold rdBytes
    rw [if_pos (by simp [List.length_append]; omega)]
    rw [← h, List.take_left, List.drop_left]
  · intro k hk
    refine ⟨"Insufficient bytes", ?_⟩
    unfold rdBytes
    rw [if_neg]
    rw [List.length_take]
    omega

theorem pExact_rdUInt {w x : Nat} (h : x < 256 ^ w) :
    PExact (rdUInt w) (leBytes w x) x := by
  have hb := @pExact_bind (List Nat) Nat (rdBytes w) (fun bs => pPure (leVal bs))
    (leBytes w x) [] (leBytes w x) (leVal (leBytes w x))
    (pExact_rdBytes (leBytes_length w x))
    (pExact_pure (leVal (leBytes w x)))
  rw [List.append_nil, leVal_leBytes_of_lt h] at hb
  exact hb

theorem p256_64 : (256 : Nat) ^ 8 = 2 ^ 64 := by norm_num

theorem p256_32 : (256 : Nat) ^ 4 = 2 ^ 32 := by norm_num

theorem pExact_rdInt_64 {i : Int} (hlo : -(2 ^ 63) ≤ i) (hhi : i < 2 ^ 63) :
    PExact (rdInt 8) (leBytes 8 (toTwos 8 i)) i := by
  have hb := @pExact_bind (List Nat) Int (rdBytes 8)
    (fun bs => pPure (fromTwos 8 (leVal bs)))
    (leBytes 8 (toTwos 8 i)) [] (leBytes 8 (toTwos 8 i))
    (fromTwos 8 (leVal (leBytes 8 (toTwos 8 i))))
    (pExact_rdBytes (leBytes_length 8 (toTwos 8 i)))
    (pExact_pure (fromTwos 8 (leVal (leBytes 8 (toTwos 8 i)))))
  rw [List.append_nil, leVal_leBytes_of_lt (p256_64 ▸ toTwos_lt_64 i),
    fromTwos_toTwos_64 hlo hhi] at hb
  exact hb

theorem pExact_rdInt_32 {i : Int} (hlo : -(2 ^ 31) ≤ i) (hhi : i < 2 ^ 31) :
    PExact (rdInt 4) (leBytes 4 (toTwos 4 i)) i := by
  have hb := @pExact_bind (List Nat) Int (rdBytes 4)
    (fun bs => pPure (fromTwos 4 (leVal bs)))
    (leBytes 4 (toTwos 4 i)) [] (leBytes 4 (toTwos 4 i))
    (fromTwos 4 (leVal (leBytes 4 (toTwos 4 i))))
    (pExact_rdBytes (leBytes_length 4 (toTwos 4 i)))
    (pExact_pure (fromTwos 4 (leVal (leBytes 4 (toTwos 4 i)))))
  rw [List.append_nil, leVal_leBytes_of_lt (p256_32 ▸ toTwos_lt_32 i),
    fromTwos_toTwos_32 hlo hhi] at hb
  exact hb

theorem pExact_rdString {bs : List Nat} (h : utf8Valid bs = true) :
    PExact (rdString bs.length) bs bs := by
  have h2 : PExact ((fun l => if utf8Valid l then pPure l
      else (pFail ⟨.invalidData, "Failed to read string"⟩ : P (List Nat))) bs) [] bs := by
    show PExact (if utf8Valid bs then pPure bs
      else pFail ⟨.invalidData, "Failed to read string"⟩) [] bs
    rw [h, if_pos rfl]
    exact pExact_pure bs
  have hb := @pExact_bind (List Nat) (List Nat) (rdBytes bs.length)
    (fun l => if utf8Valid l then pPure l
      else (pFail ⟨.invalidData, "Failed to read string"⟩ : P (List Nat)))
    bs [] bs bs (pExact_rdBytes rfl) h2
  rw [List.append_nil] at hb
  exact hb

/-- A bind whose first parser consumes no input (a `pPure` or a reduced
value-level match) is exact whenever the continuation is. -/
theorem pExact_bind_pure {α β : Type} {f : α → P β} {v : α} {cs : List Nat}
    {w : β} (hf : PExact (f v) cs w) : PExact (pBind (pPure v) f) cs w := hf

/-- A bind at the end of the input: the continuation consumes nothing. -/
theorem pExact_bind_nil {α β : Type} {p : P α} {f : α → P β} {bs : List Nat}
    {v : α} {w : β} (hp : PExact p bs v) (hf : PExact (f v) [] w) :
    PExact (pBind p f) bs w := by
  have hb := pExact_bind hp hf
  rwa [List.append_nil] at hb

theorem pExact_count {α : Type} {p : P α} {enc : α → List Nat} :
    ∀ {xs : List α}, (∀ x ∈ xs, PExact p (enc x) x) →
      PExact (pCount p xs.length) ((xs.map enc).flatten) xs
  | [], _ => pExact_pure []
  | x :: rest, h => by
    have hx : PExact p (enc x) x := h x (List.mem_cons_self x rest)
    have hrest := @pExact_count α p enc rest
      (fun y hy => h y (List.mem_cons_of_mem x hy))
    show PExact (pCount p (rest.length + 1)) ((enc x) ++ (rest.map enc).flatten) (x :: rest)
    exact pExact_bind hx (pExact_bind_nil hrest (pExact_pure (x :: rest)))

theorem dtFromTimestamp_wf {t : DT} (h : wfTs t) :
    dtFromTimestamp t.epochSecs = some t := by
  obtain ⟨secs⟩ := t
  show (if tsMin ≤ secs ∧ secs ≤ tsMax then some (DT.mk secs) else none) = some (DT.mk secs)
  rw [if_pos (show tsMin ≤ secs ∧ secs ≤ tsMax from h)]

theorem ndFromDays_wf {d : ND} (h : wfDate d) :
    ndFromDays d.daysFromCE = some d := by
  obtain ⟨days⟩ := d
  show (if daysMin ≤ days ∧ days ≤ daysMax then some (ND.mk days) else none) = some (ND.mk days)
  rw [if_pos (show daysMin ≤ days ∧ days ≤ daysMax from h)]

theorem wfTs_i64 {t : DT} (h : wfTs t) :
    -(2 ^ 63) ≤ t.epochSecs ∧ t.epochSecs < 2 ^ 63 := by
  unfold wfTs tsMin tsMax at h
  constructor <;> omega

theorem wfDate_i32 {d : ND} (h : wfDate d) :
    -(2 ^ 31) ≤ d.daysFromCE ∧ d.daysFromCE < 2 ^ 31 := by
  unfold wfDate daysMin daysMax at h
  constructor <;> omega

theorem pExact_rdU32 {x : Nat} (h : x < 2 ^ 32) : PExact (rdUInt 4) (leBytes 4 x) x :=
  pExact_rdUInt (lt_of_lt_of_eq h p256_32.symm)

theorem pExact_rdU64 {x : Nat} (h : x < 2 ^ 64) : PExact (rdUInt 8) (leBytes 8 x) x :=
  pExact_rdUInt (lt_of_lt_of_eq h p256_64.symm)

theorem pExact_rdByte {b : Nat} (hb : b < 256) : PExact (rdUInt 1) [b] b := by
  have h := @pExact_rdUInt 1 b (by simpa using hb)
  simpa [leBytes, Nat.mod_eq_of_lt hb] using h

/-- `EntryLine::deserialize` reads back exactly what `EntryLine::serialize`
wrote, for every valid `EntryLine`; strict prefixes fail with end-of-input. -/
theorem lineExact : ∀ {l : EntryLine}, l.wf → PExact EntryLine.deserializeP l.encode l := by
  intro l hwf
  obtain ⟨account, amount, side, desc⟩ := l
  obtain ⟨⟨haccv, haccl⟩, hamt, hdesc⟩ := hwf
  cases side <;> cases desc <;> simp only [EntryLine.encode, List.append_assoc]
  case Debit.none =>
    refine pExact_bind (pExact_rdU32 haccl) ?_
    refine pExact_bind (pExact_rdU64 hamt) ?_
    refine pExact_bind (pExact_rdByte (by norm_num)) (pExact_bind_pure ?_)
    refine pExact_bind (pExact_rdByte (by norm_num)) (pExact_bind_pure ?_)
    exact pExact_bind (pExact_rdString haccv) (pExact_bind_pure (pExact_pure _))
  case Debit.some d =>
    obtain ⟨hdv, hdl⟩ := hdesc
    refine pExact_bind (pExact_rdU32 haccl) ?_
    refine pExact_bind (pExact_rdU64 hamt) ?_
    refine pExact_bind (pExact_rdByte (by norm_num)) (pExact_bind_pure ?_)
    refine pExact_bind (pExact_rdByte (by norm_num)) (pExact_bind_pure ?_)
    refine pExact_bind (pExact_rdString haccv) ?_
    refine pExact_bind_nil ?_ (pExact_pure _)
    exact pExact_bind (pExact_rdU32 hdl)
      (pExact_bind_nil (pExact_rdString hdv) (pExact_pure _))
  case Credit.none =>
    refine pExact_bind (pExact_rdU32 haccl) ?_
    refine pExact_bind (pExact_rdU64 hamt) ?_
    refine pExact_bind (pExact_rdByte (by norm_num)) (pExact_bind_pure ?_)
    refine pExact_bind (pExact_rdByte (by norm_num)) (pExact_bind_pure ?_)
    exact pExact_bind (pExact_rdString haccv) (pExact_bind_pure (pExact_pure _))
  case Credit.some d =>
    obtain ⟨hdv, hdl⟩ := hdesc
    refine pExact_bind (pExact_rdU32 haccl) ?_
    refine pExact_bind (pExact_rdU64 hamt) ?_
    refine pExact_bind (pExact_rdByte (by norm_num)) (pExact_bind_pure ?_)
    refine pExact_bind (pExact_rdByte (by norm_num)) (pExact_bind_pure ?_)
    refine pExact_bind (pExact_rdString haccv) ?_
    refine pExact_bind_nil ?_ (pExact_pure _)
    exact pExact_bind (pExact_rdU32 hdl)
      (pExact_bind_nil (pExact_rdString hdv) (pExact_pure _))

theorem pExact_bind_ofOption {α β : Type} {o : Option α} {v : α}
    {err : IOError} {f : α → P β} {cs : List Nat} {w : β}
    (ho : o = some v) (hf : PExact (f v) cs w) :
    PExact (pBind (pOfOption o err) f) cs w := by
  subst ho
  exact hf

/-- `Entry::deserialize`'s payload decoder reads back exactly what
`Entry::serialize` hashes, for every valid `Entry`; strict prefixes fail with
an unexpected-end-of-input error. -/
theorem entryExact : ∀ {e : Entry}, e.wf → PExact Entry.decodeCore e.encode e := by
  intro e hwf
  cases e with
  | Origin year ts =>
    obtain ⟨hyear, hts⟩ := hwf
    obtain ⟨hlo, hhi⟩ := wfTs_i64 hts
    simp only [Entry.encode, List.append_assoc]
    refine pExact_bind (pExact_rdByte (by norm_num)) ?_
    refine pExact_bind (pExact_rdU64 hyear) ?_
    refine pExact_bind_nil (pExact_rdInt_64 hlo hhi) ?_
    exact pExact_bind_ofOption (dtFromTimestamp_wf hts) (pExact_pure _)
  | Record ts date name descr lines prev =>
    obtain ⟨hts, hdate, ⟨hnv, hnl⟩, ⟨hdv, hdl⟩, hll, hlw, hpl, hpv⟩ := hwf
    obtain ⟨htlo, hthi⟩ := wfTs_i64 hts
    obtain ⟨hdlo, hdhi⟩ := wfDate_i32 hdate
    have hprev : PExact (rdString 64) prev prev := by
      rw [← hpl]; exact pExact_rdString hpv
    simp only [Entry.encode, List.append_assoc]
    refine pExact_bind (pExact_rdByte (by norm_num)) ?_
    refine pExact_bind (pExact_rdInt_32 hdlo hdhi) ?_
    refine pExact_bind_ofOption (ndFromDays_wf hdate) ?_
    refine pExact_bind (pExact_rdInt_64 htlo hthi) ?_
    refine pExact_bind_ofOption (dtFromTimestamp_wf hts) ?_
    refine pExact_bind (pExact_rdU32 hnl) ?_
    refine pExact_bind (pExact_rdU32 hdl) ?_
    refine pExact_bind (pExact_rdString hnv) ?_
    refine pExact_bind (pExact_rdString hdv) ?_
    refine pExact_bind (pExact_rdU32 hll) ?_
    refine pExact_bind (pExact_count fun l hl => lineExact (hlw l hl)) ?_
    exact pExact_bind_nil hprev (pExact_pure _)

/-- Round-trip with an arbitrary unread suffix: the payload decoder consumes
exactly the canonical encoding and returns the original entry. -/
theorem decodeCore_encode {e : Entry} (h : e.wf) (rest : List Nat) :
    Entry.decodeCore (e.encode ++ rest) = .ok (e, rest) :=
  (entryExact h).1 rest

/-- Truncation: the payload decoder fails with an unexpected-end-of-input
error on every strict prefix of a valid encoding. -/
theorem decodeCore_truncated {e : Entry} (h : e.wf) {k : Nat}
    (hk : k < e.encode.length) :
    ∃ m, Entry.decodeCore (e.encode.take k) = .error ⟨.unexpectedEof, m⟩ :=
  (entryExact h).2 k hk

/-- The canonical encoding never begins with a gzip header: its first byte is
the discriminant `0x00` or `0x01`, not the gzip magic `0x1f`. -/
theorem hasGzipHeader_encode (e : Entry) : hasGzipHeader e.encode = false := by
  cases e <;> rfl

theorem hasGzipHeader_encode_take (e : Entry) (k : Nat) :
    hasGzipHeader (e.encode.take k) = false := by
  cases k with
  | zero => rfl
  | succ k => cases e <;> rfl

/-- Full-pipeline round-trip on the stored bytes: deserializing the
gzip-compressed canonical encoding recovers the entry. -/
theorem deserialize_gzip_encode {e : Entry} (h : e.wf) :
    Entry.deserialize (gzipCompress e.encode) = .ok e := by
  unfold Entry.deserialize
  rw [hasGzipHeader_gzipCompress, if_pos rfl, gzipDecompress_gzipCompress]
  rw [show e.encode = e.encode ++ [] from (List.append_nil _).symm,
    decodeCore_encode h]

/-- Raw (uncompressed legacy stream) round-trip: `deserialize` also accepts
the bare canonical encoding, via the rewind path. -/
theorem deserialize_raw_encode {e : Entry} (h : e.wf) :
    Entry.deserialize e.encode = .ok e := by
  unfold Entry.deserialize
  rw [hasGzipHeader_encode, if_neg (by simp)]
  rw [show e.encode = e.encode ++ [] from (List.append_nil _).symm,
    decodeCore_encode h]

/-- The canonical encoding is injective on valid entries. -/
theorem encode_injective {a b : Entry} (ha : a.wf) (hb : b.wf)
    (h : a.encode = b.encode) : a = b := by
  have h1 := decodeCore_encode ha []
  have h2 := decodeCore_encode hb []
  rw [h] at h1
  rw [h1] at h2
  injection h2 with h2
  injection h2

/-! ## Writers (`std::io::Write`)

A writer is its state type plus `write`/`flush` operations with explicit state
threading; `write` returns the number of bytes accepted.  `Vec<u8>`, `File`
and `io::empty()` sinks differ only in their state, and all accept every
byte offered. -/

structure MWriter (σ : Type) where
  write : σ → List Nat → Except IOError (σ × Nat)
  flush : σ → Except IOError σ

/-- `TeeWriter::write` (`src/tee_writer.rs`): forward the buffer to the first
writer, forward the accepted prefix `buf[..n1]` to the second, and return the
minimum of the two accepted counts. -/
def teeWrite {σ1 σ2 : Type} (w1 : MWriter σ1) (w2 : MWriter σ2)
    (s : σ1 × σ2) (buf : List Nat) : Except IOError ((σ1 × σ2) × Nat) :=
  match w1.write s.1 buf with
  | .error e => .error e
  | .ok (s1, n1) =>
    match w2.write s.2 (buf.take n1) with
    | .error e => .error e
    | .ok (s2, n2) => .ok ((s1, s2), min n1 n2)

/-- `TeeWriter::flush` (`src/tee_writer.rs`): flush writer 1, then writer 2. -/
def teeFlush {σ1 σ2 : Type} (w1 : MWriter σ1) (w2 : MWriter σ2)
    (s : σ1 × σ2) : Except IOError (σ1 × σ2) :=
  match w1.flush s.1 with
  | .error e => .error e
  | .ok s1 =>
    match w2.flush s.2 with
    | .error e => .error e
    | .ok s2 => .ok (s1, s2)

/-- `TeeWriter` as a writer over the product state. -/
def TeeWriter {σ1 σ2 : Type} (w1 : MWriter σ1) (w2 : MWriter σ2) :
    MWriter (σ1 × σ2) :=
  ⟨teeWrite w1 w2, teeFlush w1 w2⟩

/-- `Write::write_all`: loop `write` until the buffer is exhausted, failing on
a zero-length write; `fuel` bounds the iterations (`buf.length` suffices,
since each successful iteration consumes at least one byte).  The
`Interrupted`-retry arm of the Rust loop is elided: no modelled writer
produces `Interrupted`. -/
def writeAllGo {σ : Type} (w : MWriter σ) (fuel : Nat) (s : σ)
    (buf : List Nat) : Except IOError σ :=
  match buf, fuel with
  | [], _ => .ok s
  | _ :: _, 0 => .error ⟨.otherErr, "write loop fuel exhausted"⟩
  | b :: rest, fuel + 1 =>
    match w.write s (b :: rest) with
    | .error e => .error e
    | .ok (s2, n) =>
      if n = 0 then .error ⟨.writeZero, "failed to write whole buffer"⟩
      else writeAllGo w fuel s2 ((b :: rest).drop n)

def writeAll {σ : Type} (w : MWriter σ) (s : σ) (buf : List Nat) :
    Except IOError σ :=
  writeAllGo w buf.length s buf

/-- A `Vec<u8>` sink: accepts everything, state is the accumulated bytes. -/
def bufWriter : MWriter (List Nat) :=
  ⟨fun s buf => .ok (s ++ buf, buf.length), fun s => .ok s⟩

/-- `std::io::empty()`, used by `short_hash`: accepts and discards all bytes. -/
def emptyWriter : MWriter Unit :=
  ⟨fun _ buf => .ok ((), buf.length), fun _ => .ok ()⟩

/-- `sha2::Sha256` driven through `Write`: `write` feeds the digest (modelled
as accumulating the fed byte stream), `flush` is a no-op; finalisation applies
`sha256hex` to the accumulated stream. -/
def shaWriter : MWriter (List Nat) :=
  ⟨fun s buf => .ok (s ++ buf, buf.length), fun s => .ok s⟩

/-- `flate2::GzEncoder<W>`: state is the inner writer's state paired with the
raw bytes consumed so far.  `write` buffers (no inner I/O until the internal
buffer is flushed), accepting everything; `flush` — taken together with the
finalisation that `flate2` performs when the encoder is dropped right after
`into_inner()` in `Entry::serialize` — emits the complete gzip stream for the
raw bytes into the inner writer and flushes it. -/
def gzWriter {σ : Type} (w : MWriter σ) : MWriter (σ × List Nat) :=
  ⟨fun s buf => .ok ((s.1, s.2 ++ buf), buf.length),
   fun s =>
     match writeAll w s.1 (gzipCompress s.2) with
     | .error e => .error e
     | .ok s1 =>
       match w.flush s1 with
       | .error e => .error e
       | .ok s2 => .ok (s2, s.2)⟩

/-- The writer stack of `Entry::serialize`:
`TeeWriter::new(GzEncoder::new(output, default), Sha256::new())`. -/
def entryWriter {σ : Type} (w : MWriter σ) : MWriter ((σ × List Nat) × List Nat) :=
  TeeWriter (gzWriter w) shaWriter

/-- `EntryLine::serialize` against an arbitrary writer `W`: the source's
`write_all` calls, in order. -/
def EntryLine.serializeTo {τ : Type} (w : MWriter τ) (st : τ) (l : EntryLine) :
    Except IOError τ :=
  match writeAll w st (leBytes 4 l.account.length) with
  | .error e => .error e
  | .ok st =>
    match writeAll w st (leBytes 8 l.amount) with
    | .error e => .error e
    | .ok st =>
      match writeAll w st [match l.side with | .Credit => 0x00 | .Debit => 0x01] with
      | .error e => .error e
      | .ok st =>
        match writeAll w st [match l.description with | some _ => 0x01 | none => 0x00] with
        | .error e => .error e
        | .ok st =>
          match writeAll w st l.account with
          | .error e => .error e
          | .ok st =>
            match l.description with
            | some d =>
              match writeAll w st (leBytes 4 d.length) with
              | .error e => .error e
              | .ok st => writeAll w st d
            | none => .ok st

/-- The `for line in lines` loop of `Entry::serialize`. -/
def linesSerializeTo {τ : Type} (w : MWriter τ) : τ → List EntryLine → Except IOError τ
  | st, [] => .ok st
  | st, l :: rest =>
    match EntryLine.serializeTo w st l with
    | .error e => .error e
    | .ok st2 => linesSerializeTo w st2 rest

/-- The field-emission phase of `Entry::serialize` (`src/entry/serde.rs`):
the source's `write_all` calls against the tee writer, in order. -/
def Entry.writeFields {τ : Type} (tw : MWriter τ) (st0 : τ) : Entry → Except IOError τ
  | .Origin year ts =>
    match writeAll tw st0 [0x00] with
    | .error e => .error e
    | .ok st =>
      match writeAll tw st (leBytes 8 year) with
      | .error e => .error e
      | .ok st => writeAll tw st (leBytes 8 (toTwos 8 ts.epochSecs))
  | .Record ts date name descr lines prev =>
    match writeAll tw st0 [0x01] with
    | .error e => .error e
    | .ok st =>
      match writeAll tw st (leBytes 4 (toTwos 4 date.daysFromCE)) with
      | .error e => .error e
      | .ok st =>
        match writeAll tw st (leBytes 8 (toTwos 8 ts.epochSecs)) with
        | .error e => .error e
        | .ok st =>
          match writeAll tw st (leBytes 4 name.length) with
          | .error e => .error e
          | .ok st =>
            match writeAll tw st (leBytes 4 descr.length) with
            | .error e => .error e
            | .ok st =>
              match writeAll tw st name with
              | .error e => .error e
              | .ok st =>
                match writeAll tw st descr with
                | .error e => .error e
                | .ok st =>
                  match writeAll tw st (leBytes 4 lines.length) with
                  | .error e => .error e
                  | .ok st =>
                    match linesSerializeTo tw st lines with
                    | .error e => .error e
                    | .ok st => writeAll tw st prev

/-- `Entry::serialize` (`src/entry/serde.rs`) against an arbitrary sink `w`:
wrap the sink in `GzEncoder`, tee it with a `Sha256` digest, emit the fields
of the entry in order, flush, and return the final sink state together with
the hex digest of the hashed stream. -/
def Entry.serialize {σ : Type} (w : MWriter σ) (s0 : σ) (e : Entry) :
    Except IOError (σ × List Nat) :=
  match Entry.writeFields (entryWriter w) ((s0, []), []) e with
  | .error err => .error err
  | .ok st =>
    match (entryWriter w).flush st with
    | .error err => .error err
    | .ok ((s1, _), sha) => .ok (s1, sha256hex sha)

theorem writeAllGo_nil {σ : Type} (w : MWriter σ) (fuel : Nat) (s : σ) :
    writeAllGo w fuel s [] = .ok s := by
  cases fuel <;> rfl

/-- The tee of the gzip encoder and the digest accepts every buffer whole,
appending it both to the raw gzip input and to the hashed stream. -/
theorem writeAll_tee {σ : Type} (w : MWriter σ) (si : σ) (raw sha buf : List Nat) :
    writeAll (entryWriter w) ((si, raw), sha) buf
      = .ok ((si, raw ++ buf), sha ++ buf) := by
  cases buf with
  | nil => simp [writeAll, writeAllGo]
  | cons b rest =>
    have hw : teeWrite (gzWriter w) shaWriter ((si, raw), sha) (b :: rest)
        = .ok (((si, raw ++ (b :: rest)), sha ++ (b :: rest)), rest.length + 1) := by
      unfold teeWrite gzWriter shaWriter
      simp [List.take_of_length_le]
    have hdrop : (b :: rest).drop (rest.length + 1) = [] := by
      simp [List.drop_length]
    show writeAllGo (entryWriter w) (rest.length + 1) ((si, raw), sha) (b :: rest) = _
    unfold writeAllGo entryWriter TeeWriter
    simp only []
    rw [hw]
    simp only [Nat.succ_ne_zero, if_neg, if_false]
    rw [hdrop, writeAllGo_nil]

/-- `EntryLine::serialize` through the tee appends the line's canonical
encoding to both streams. -/
theorem lineSerializeTo_tee {σ : Type} (w : MWriter σ) (si : σ)
    (raw sha : List Nat) (l : EntryLine) :
    EntryLine.serializeTo (entryWriter w) ((si, raw), sha) l
      = .ok ((si, raw ++ l.encode), sha ++ l.encode) := by
  obtain ⟨account, amount, side, desc⟩ := l
  cases desc with
  | none =>
    simp [EntryLine.serializeTo, writeAll_tee, EntryLine.encode, List.append_assoc]
  | some d =>
    simp [EntryLine.serializeTo, writeAll_tee, EntryLine.encode, List.append_assoc]

/-- The line loop through the tee appends the concatenated encodings. -/
theorem linesSerializeTo_tee {σ : Type} (w : MWriter σ) (si : σ) :
    ∀ (ls : List EntryLine) (raw sha : List Nat),
      linesSerializeTo (entryWriter w) ((si, raw), sha) ls
        = .ok ((si, raw ++ (ls.map EntryLine.encode).flatten),
               sha ++ (ls.map EntryLine.encode).flatten)
  | [], raw, sha => by simp [linesSerializeTo]
  | l :: rest, raw, sha => by
    simp only [linesSerializeTo, lineSerializeTo_tee, linesSerializeTo_tee w si rest]
    simp [List.append_assoc]

/-- The field-emission phase through the tee appends the entry's canonical
encoding to both the raw gzip input and the hashed stream. -/
theorem writeFields_tee {σ : Type} (w : MWriter σ) (si : σ)
    (raw sha : List Nat) (e : Entry) :
    Entry.writeFields (entryWriter w) ((si, raw), sha) e
      = .ok ((si, raw ++ e.encode), sha ++ e.encode) := by
  cases e with
  | Origin year ts =>
    simp [Entry.writeFields, writeAll_tee, Entry.encode, List.append_assoc]
  | Record ts date name descr lines prev =>
    simp [Entry.writeFields, writeAll_tee, linesSerializeTo_tee, Entry.encode,
      List.append_assoc]

/-- `Entry::serialize`, characterised: the sink receives the gzip-compressed
canonical encoding through `write_all` plus a final flush, and the returned
digest is the hex SHA-256 of the uncompressed canonical encoding — whatever
the sink is. -/
theorem serialize_eq {σ : Type} (w : MWriter σ) (s0 : σ) (e : Entry) :
    Entry.serialize w s0 e =
      match writeAll w s0 (gzipCompress e.encode) with
      | .error err => .error err
      | .ok s1 =>
        match w.flush s1 with
        | .error err => .error err
        | .ok s2 => .ok (s2, sha256hex e.encode) := by
  unfold Entry.serialize
  rw [writeFields_tee, List.nil_append]
  unfold entryWriter TeeWriter teeFlush gzWriter shaWriter
  simp only []
  cases hw : writeAll w s0 (gzipCompress e.encode) with
  | error err => rfl
  | ok s1 =>
    simp only []
    cases hf : w.flush s1 with
    | error err => rfl
    | ok s2 => rfl

/-! ## The file system and the ledger (`src/ledger.rs`)

The ledger's on-disk state is the `HEAD` pointer file and the `objects/`
directory; path handling is process-level setup outside the core.  Object
file names (hash strings) and contents are byte lists; the model's list order
is the directory enumeration order of `read_dir`.  `Utc::now()` appears as an
explicit timestamp parameter, and the `Origin` constructed by `init` carries
that timestamp (the serialised `Origin` of `src/entry/serde.rs` stores one). -/

structure FS where
  headFile : List Nat
  objects : List (List Nat × List Nat)
deriving DecidableEq

/-- `fs::write`: create the named file or truncate and replace its content. -/
def fsWriteObject (objs : List (List Nat × List Nat)) (name content : List Nat) :
    List (List Nat × List Nat) :=
  match objs with
  | [] => [(name, content)]
  | (n, c) :: rest =>
    if n = name then (n, content) :: rest
    else (n, c) :: fsWriteObject rest name content

/-- Open an object file by exact name (`Entry::from_file` via `File::open`). -/
def objGet (objs : List (List Nat × List Nat)) (name : List Nat) : Option (List Nat) :=
  match objs with
  | [] => none
  | (n, c) :: rest => if n = name then some c else objGet rest name

/-- The in-memory `Ledger` state: the decoded HEAD entry, its hash string,
and the lazy decode cache `hash_map`. -/
structure Ledger where
  head : Entry
  headHash : List Nat
  hashMap : List (List Nat × Entry)
deriving DecidableEq

/-- One file-system mutation performed by a ledger operation. -/
inductive FSOp where
  | putObject (name content : List Nat)
  | setHead (hash : List Nat)
deriving DecidableEq

def applyOp (fs : FS) : FSOp → FS
  | .putObject n c => { fs with objects := fsWriteObject fs.objects n c }
  | .setHead h => { fs with headFile := h }

def applyOps (fs : FS) (ops : List FSOp) : FS := ops.foldl applyOp fs

/-- `Ledger::init`: fail with `DirectoryNotEmpty` if the location is already a
directory; otherwise serialise a fresh `Origin`, write its hash to `HEAD`, and
store its bytes under `objects/<hash>`. -/
def Ledger.init (year : Nat) (now : DT) (locationIsDir : Bool) :
    Except IOError (Ledger × FS) :=
  if locationIsDir then
    .error ⟨.directoryNotEmpty, "Directory isn't empty"⟩
  else
    match Entry.serialize bufWriter [] (Entry.Origin year now) with
    | .error e => .error e
    | .ok (buffer, hash) =>
      .ok ({ head := Entry.Origin year now, headHash := hash, hashMap := [] },
           { headFile := hash, objects := fsWriteObject [] hash buffer })

/-- The file-system mutations of `Ledger::add_entry`, in source order: persist
the serialised entry under `objects/<hash>`, then repoint the `HEAD` file. -/
def addEntryOps (hash bytes : List Nat) : List FSOp :=
  [.putObject hash bytes, .setHead hash]

/-- `Ledger::add_entry`: build a `Record` whose `previous_entry` is the current
HEAD hash, serialise and hash it into a `Vec<u8>` buffer, apply the
file-system writes of `addEntryOps`, and move the in-memory HEAD. -/
def Ledger.addEntry (led : Ledger) (fs : FS) (now : DT) (eventDate : ND)
    (name descr : List Nat) (lines : List EntryLine) :
    Except IOError (Ledger × FS × List Nat) :=
  match Entry.serialize bufWriter []
      (Entry.Record now eventDate name descr lines led.headHash) with
  | .error e => .error e
  | .ok (buffer, hash) =>
    .ok ({ head := Entry.Record now eventDate name descr lines led.headHash,
           headHash := hash, hashMap := led.hashMap },
         applyOps fs (addEntryOps hash buffer), hash)

/-- Association lookup in the decode cache. -/
def lookupEntry (m : List (List Nat × Entry)) (h : List Nat) : Option Entry :=
  match m with
  | [] => none
  | (n, e) :: rest => if n = h then some e else lookupEntry rest h

/-- `Ledger::get_entry`: serve from the `hash_map` cache, else open
`objects/<hash>` (`NotFound` if missing), decode it, and cache the result. -/
def Ledger.getEntry (led : Ledger) (fs : FS) (h : List Nat) :
    Except IOError (Entry × Ledger) :=
  match lookupEntry led.hashMap h with
  | some e => .ok (e, led)
  | none =>
    match objGet fs.objects h with
    | none => .error ⟨.notFound, "No such file or directory"⟩
    | some content =>
      match Entry.deserialize content with
      | .error e => .error e
      | .ok e => .ok (e, { led with hashMap := led.hashMap ++ [(h, e)] })

/-- The byte string of the literal reference token `"HEAD"`. -/
def headToken : List Nat := [0x48, 0x45, 0x41, 0x44]

/-- `Ledger::find_hash`: the stored object names that start with the given
prefix string, in directory order. -/
def Ledger.findHash (fs : FS) (pre : List Nat) : List (List Nat) :=
  (fs.objects.map Prod.fst).filter (fun n => pre.isPrefixOf n)

/-- `Ledger::from_ref`: the literal token `"HEAD"` resolves to the current
HEAD hash; any other token is a hash prefix — no match is `NotFound`, a unique
match resolves, two or more matches are `TooManyLinks`. -/
def Ledger.fromRef (led : Ledger) (fs : FS) (entryRef : List Nat) :
    Except IOError (List Nat) :=
  if entryRef = headToken then .ok led.headHash
  else
    match Ledger.findHash fs entryRef with
    | [] => .error ⟨.notFound, "ref not found"⟩
    | [h] => .ok h
    | _ => .error ⟨.tooManyLinks, "To many refs match"⟩

/-- The traversal of `Ledger::show_log`, as the sequence of entries whose
`show_short` renderings it concatenates (the display formatting itself is
presentation-layer behaviour outside the verified core): while the current
entry is a `Record`, emit it and resolve its `previous_entry` through
`from_ref`; on reaching an `Origin`, emit it via the post-loop `get_entry` and
stop.  `fuel` bounds the loop — the Rust loop is unbounded and would not
terminate on a cyclic reference chain; chain length + 1 steps always suffice
for the chains the ledger builds. -/
def Ledger.showLogEntries (fs : FS) : Nat → Ledger → List Nat →
    Except IOError (List Entry × Ledger)
  | 0, _, _ => .error ⟨.otherErr, "loop bound exceeded"⟩
  | fuel + 1, led, h =>
    match led.getEntry fs h with
    | .error e => .error e
    | .ok (e, led2) =>
      match e with
      | .Record ts date name descr lines prev =>
        match led2.fromRef fs prev with
        | .error e2 => .error e2
        | .ok h2 =>
          match Ledger.showLogEntries fs fuel led2 h2 with
          | .error e2 => .error e2
          | .ok (rest, led3) =>
            .ok (Entry.Record ts date name descr lines prev :: rest, led3)
      | .Origin year ts =>
        match led2.getEntry fs h with
        | .error e2 => .error e2
        | .ok (e2, led3) => .ok ([e2], led3)

/-- The hash string under which an entry is stored: the hex SHA-256 digest of
its canonical encoding, as returned by `Entry::serialize`. -/
def entryHash (e : Entry) : List Nat := sha256hex e.encode

/-- The stored object-file content for an entry: the gzip-compressed canonical
encoding that `serialize` pushes into the sink. -/
def entryBytes (e : Entry) : List Nat := gzipCompress e.encode

theorem entryHash_length (e : Entry) : (entryHash e).length = 64 :=
  sha256hex_length e.encode

theorem entryHash_utf8Valid (e : Entry) : utf8Valid (entryHash e) = true :=
  sha256hex_utf8Valid e.encode

/-- `Entry::serialize` into a `Vec<u8>` buffer never fails and produces the
compressed bytes and the canonical hash. -/
theorem serialize_buf (e : Entry) :
    Entry.serialize bufWriter [] e = .ok (entryBytes e, entryHash e) := by
  rw [serialize_eq]
  have hw : writeAll bufWriter [] (gzipCompress e.encode)
      = .ok (gzipCompress e.encode) := by
    cases hb : gzipCompress e.encode with
    | nil => simp [writeAll, writeAllGo]
    | cons b rest =>
      show writeAllGo bufWriter (rest.length + 1) [] (b :: rest) = _
      unfold writeAllGo bufWriter
      simp only [List.nil_append]
      rw [if_neg (by simp), List.drop_length, writeAllGo_nil]
  rw [hw]
  rfl

/-! ## Chains of `add_entry` calls -/

/-- The caller-supplied arguments of one `add_entry` call, together with the
explicit clock/date inputs of `Entry::new`. -/
structure RecSpec where
  now : DT
  eventDate : ND
  name : List Nat
  descr : List Nat
  lines : List EntryLine
deriving DecidableEq

/-- Valid `add_entry` arguments: real Rust strings and valid chrono values. -/
def RecSpec.wf (sp : RecSpec) : Prop :=
  wfTs sp.now ∧ wfDate sp.eventDate ∧ wfStr sp.name ∧ wfStr sp.descr ∧
  sp.lines.length < 2 ^ 32 ∧ ∀ l ∈ sp.lines, l.wf

instance (sp : RecSpec) : Decidable sp.wf :=
  inferInstanceAs (Decidable (wfTs sp.now ∧ wfDate sp.eventDate ∧ wfStr sp.name ∧
    wfStr sp.descr ∧ sp.lines.length < 2 ^ 32 ∧ ∀ l ∈ sp.lines, l.wf))

/-- The `Record` that `add_entry` constructs for a spec and a HEAD hash. -/
def mkRec (sp : RecSpec) (prev : List Nat) : Entry :=
  Entry.Record sp.now sp.eventDate sp.name sp.descr sp.lines prev

/-- Run `add_entry` once per spec, in order. -/
def addAll : List RecSpec → Ledger → FS → Except IOError (Ledger × FS)
  | [], led, fs => .ok (led, fs)
  | sp :: rest, led, fs =>
    match led.addEntry fs sp.now sp.eventDate sp.name sp.descr sp.lines with
    | .error e => .error e
    | .ok (led2, fs2, _) => addAll rest led2 fs2

/-- The records the adds create, oldest first, each linked to the hash of its
predecessor; `prevHash` seeds the chain (the hash of the entry at HEAD before
the first add). -/
def chainRecords (prevHash : List Nat) : List RecSpec → List Entry
  | [] => []
  | sp :: rest =>
    mkRec sp prevHash :: chainRecords (entryHash (mkRec sp prevHash)) rest

/-- The entry at HEAD after the adds. -/
def chainTip (e : Entry) : List RecSpec → Entry
  | [] => e
  | sp :: rest => chainTip (mkRec sp (entryHash e)) rest

/-- The full stored chain, oldest first, starting from `e`. -/
def chainList (e : Entry) (specs : List RecSpec) : List Entry :=
  e :: chainRecords (entryHash e) specs

/-- The object-store rows for a list of entries. -/
def objsOf (l : List Entry) : List (List Nat × List Nat) :=
  l.map (fun x => (entryHash x, entryBytes x))

theorem chainRecords_length (prevHash : List Nat) (specs : List RecSpec) :
    (chainRecords prevHash specs).length = specs.length := by
  induction specs generalizing prevHash with
  | nil => rfl
  | cons sp rest ih => simp [chainRecords, ih]

theorem chainRecords_wf {specs : List RecSpec} (hs : ∀ sp ∈ specs, sp.wf) :
    ∀ (e : Entry), ∀ r ∈ chainRecords (entryHash e) specs, r.wf := by
  induction specs with
  | nil => intro e r hr; cases hr
  | cons sp rest ih =>
    intro e r hr
    have hsp : sp.wf := hs sp (List.mem_cons_self sp rest)
    rcases List.mem_cons.mp hr with rfl | hr2
    · obtain ⟨h1, h2, h3, h4, h5, h6⟩ := hsp
      exact ⟨h1, h2, h3, h4, h5, h6, entryHash_length _, entryHash_utf8Valid _⟩
    · have := ih (fun q hq => hs q (List.mem_cons_of_mem sp hq)) (mkRec sp (entryHash e))
      exact this r hr2

theorem chainRecords_are_records (prevHash : List Nat) (specs : List RecSpec) :
    ∀ r ∈ chainRecords prevHash specs,
      ∃ ts date name descr lines prev, r = Entry.Record ts date name descr lines prev := by
  induction specs generalizing prevHash with
  | nil => intro r hr; cases hr
  | cons sp rest ih =>
    intro r hr
    rcases List.mem_cons.mp hr with rfl | hr2
    · exact ⟨sp.now, sp.eventDate, sp.name, sp.descr, sp.lines, prevHash, rfl⟩
    · exact ih (entryHash (mkRec sp prevHash)) r hr2

/-- Fresh object names append at the end of the directory. -/
theorem fsWriteObject_fresh {objs : List (List Nat × List Nat)}
    {name : List Nat} (h : ∀ p ∈ objs, p.1 ≠ name) (content : List Nat) :
    fsWriteObject objs name content = objs ++ [(name, content)] := by
  induction objs with
  | nil => rfl
  | cons p rest ih =>
    obtain ⟨n, c⟩ := p
    have hne : n ≠ name := h (n, c) (List.mem_cons_self _ _)
    show (if n = name then (n, content) :: rest
          else (n, c) :: fsWriteObject rest name content) = _
    rw [if_neg hne, ih (fun q hq => h q (List.mem_cons_of_mem _ hq))]
    rfl

/-- Running the adds from a consistent ledger/store state appends the new
records to the object store and moves HEAD to the chain tip.  `O` is the list
of previously stored entries (oldest first, ending with the current HEAD
entry `e`); the hashes of all entries ever stored must be distinct. -/
theorem addAll_run : ∀ (specs : List RecSpec) (e : Entry) (O : List Entry)
    (cm : List (List Nat × Entry)),
    ((O ++ [e] ++ chainRecords (entryHash e) specs).map entryHash).Nodup →
    addAll specs ⟨e, entryHash e, cm⟩ ⟨entryHash e, objsOf (O ++ [e])⟩
      = .ok (⟨chainTip e specs, entryHash (chainTip e specs), cm⟩,
             ⟨entryHash (chainTip e specs),
              objsOf (O ++ [e] ++ chainRecords (entryHash e) specs)⟩) := by
  intro specs
  induction specs with
  | nil =>
    intro e O cm hnd
    simp [addAll, chainTip, chainRecords]
  | cons sp rest ih =>
    intro e O cm hnd
    show (match Ledger.addEntry ⟨e, entryHash e, cm⟩ ⟨entryHash e, objsOf (O ++ [e])⟩
            sp.now sp.eventDate sp.name sp.descr sp.lines with
          | Except.error err => Except.error err
          | Except.ok (led2, fs2, _) => addAll rest led2 fs2) = _
    unfold Ledger.addEntry
    rw [show Entry.Record sp.now sp.eventDate sp.name sp.descr sp.lines
          (Ledger.headHash ⟨e, entryHash e, cm⟩) = mkRec sp (entryHash e) from rfl]
    rw [serialize_buf]
    simp only []
    have hfresh : ∀ p ∈ objsOf (O ++ [e]), p.1 ≠ entryHash (mkRec sp (entryHash e)) := by
      intro p hp
      obtain ⟨x, hx, rfl⟩ := List.mem_map.mp hp
      intro heq
      have heq2 : entryHash x = entryHash (mkRec sp (entryHash e)) := heq
      rw [chainRecords] at hnd
      have hmem1 : entryHash x ∈ (O ++ [e]).map entryHash := List.mem_map_of_mem _ hx
      have hperm : ((O ++ [e]) ++ (mkRec sp (entryHash e)
          :: chainRecords (entryHash (mkRec sp (entryHash e))) rest)).map entryHash
          = (O ++ [e]).map entryHash ++ (entryHash (mkRec sp (entryHash e))
            :: (chainRecords (entryHash (mkRec sp (entryHash e))) rest).map entryHash) := by
        simp
      rw [hperm] at hnd
      have hdisj := List.disjoint_of_nodup_append hnd
      exact hdisj hmem1 (by rw [heq2]; exact List.mem_cons_self _ _)
    have happly : applyOps ⟨entryHash e, objsOf (O ++ [e])⟩
        (addEntryOps (entryHash (mkRec sp (entryHash e)))
          (entryBytes (mkRec sp (entryHash e))))
        = ⟨entryHash (mkRec sp (entryHash e)),
           objsOf ((O ++ [e]) ++ [mkRec sp (entryHash e)])⟩ := by
      unfold applyOps addEntryOps
      simp only [List.foldl_cons, List.foldl_nil, applyOp]
      rw [fsWriteObject_fresh hfresh]
      simp [objsOf]
    rw [happly]
    have hih := ih (mkRec sp (entryHash e)) (O ++ [e]) cm (by
      rw [chainRecords] at hnd
      have hre : (O ++ [e]) ++ mkRec sp (entryHash e)
          :: chainRecords (entryHash (mkRec sp (entryHash e))) rest
          = ((O ++ [e]) ++ [mkRec sp (entryHash e)])
            ++ chainRecords (entryHash (mkRec sp (entryHash e))) rest := by
        simp
      rw [hre] at hnd
      exact hnd)
    rw [hih]
    rw [show chainTip e (sp :: rest) = chainTip (mkRec sp (entryHash e)) rest from rfl,
      chainRecords]
    congr 3
    simp

/-! ## Walking the chain -/

/-- Every decode-cache row re-decodes from the store to its cached entry. -/
def cacheOK (fs : FS) (cm : List (List Nat × Entry)) : Prop :=
  ∀ p ∈ cm, ∃ c, objGet fs.objects p.1 = some c ∧ Entry.deserialize c = .ok p.2

theorem lookupEntry_mem {m : List (List Nat × Entry)} {h : List Nat} {v : Entry}
    (hl : lookupEntry m h = some v) : (h, v) ∈ m := by
  induction m with
  | nil => cases hl
  | cons p rest ih =>
    obtain ⟨n, e⟩ := p
    by_cases hn : n = h
    · subst hn
      rw [show lookupEntry ((n, e) :: rest) n = some e from by simp [lookupEntry]] at hl
      injection hl with hl
      subst hl
      exact List.mem_cons_self _ _
    · rw [show lookupEntry ((n, e) :: rest) h = lookupEntry rest h from by
        simp [lookupEntry, hn]] at hl
      exact List.mem_cons_of_mem _ (ih hl)

theorem objGet_objsOf {C : List Entry} (hnd : (C.map entryHash).Nodup)
    {e : Entry} (he : e ∈ C) :
    objGet (objsOf C) (entryHash e) = some (entryBytes e) := by
  induction C with
  | nil => cases he
  | cons a rest ih =>
    simp only [objsOf, List.map_cons] at *
    rcases List.mem_cons.mp he with rfl | hr
    · simp [objGet]
    · have hnd2 := List.nodup_cons.mp hnd
      have hne : entryHash a ≠ entryHash e := by
        intro hcontra
        exact hnd2.1 (hcontra ▸ List.mem_map_of_mem entryHash hr)
      show (if entryHash a = entryHash e then some (entryBytes a)
            else objGet (rest.map fun x => (entryHash x, entryBytes x)) (entryHash e)) = _
      rw [if_neg hne]
      exact ih hnd2.2 hr

/-- `get_entry` on a chain store returns the stored entry (whether served from
the cache or decoded from disk), touching only the cache. -/
theorem getEntry_chain {C : List Entry} {fs : FS}
    (hfs : fs.objects = objsOf C)
    (hwf : ∀ x ∈ C, x.wf) (hnd : (C.map entryHash).Nodup)
    {e : Entry} (he : e ∈ C) (led : Ledger) (hcm : cacheOK fs led.hashMap) :
    ∃ cm2, led.getEntry fs (entryHash e) = .ok (e, { led with hashMap := cm2 })
      ∧ cacheOK fs cm2 := by
  have hobj : objGet fs.objects (entryHash e) = some (entryBytes e) := by
    rw [hfs]; exact objGet_objsOf hnd he
  have hdes : Entry.deserialize (entryBytes e) = .ok e :=
    deserialize_gzip_encode (hwf e he)
  unfold Ledger.getEntry
  cases hc : lookupEntry led.hashMap (entryHash e) with
  | some e2 =>
    obtain ⟨c, hc1, hc2⟩ := hcm _ (lookupEntry_mem hc)
    rw [hobj] at hc1
    injection hc1 with hc1
    subst hc1
    rw [hdes] at hc2
    injection hc2 with hc2
    subst hc2
    exact ⟨led.hashMap, rfl, hcm⟩
  | none =>
    rw [hobj]
    simp only []
    rw [hdes]
    refine ⟨led.hashMap ++ [(entryHash e, e)], rfl, ?_⟩
    intro p hp
    rcases List.mem_append.mp hp with hl | hr
    · exact hcm p hl
    · rw [List.mem_singleton.mp hr]
      exact ⟨entryBytes e, hobj, hdes⟩

theorem isPrefixOf_eq_of_length {p n : List Nat} (hpre : p.isPrefixOf n = true)
    (hlen : n.length = p.length) : p = n := by
  have h1 : p <+: n := List.isPrefixOf_iff_prefix.mp hpre
  exact List.IsPrefix.eq_of_length h1 hlen.symm

theorem filter_prefix_eq {names : List (List Nat)} {p : List Nat}
    (hlen : ∀ n ∈ names, n.length = p.length) (hnd : names.Nodup)
    (hp : p ∈ names) :
    names.filter (fun n => p.isPrefixOf n) = [p] := by
  induction names with
  | nil => cases hp
  | cons a rest ih =>
    have hnd2 := List.nodup_cons.mp hnd
    rcases List.mem_cons.mp hp with rfl | hr
    · have hnil : rest.filter (fun n => List.isPrefixOf p n) = [] := by
        rw [List.filter_eq_nil_iff]
        intro n hn htrue
        have heqn := isPrefixOf_eq_of_length htrue (hlen n (List.mem_cons_of_mem _ hn))
        exact hnd2.1 (by rw [heqn]; exact hn)
      rw [List.filter_cons_of_pos (by simp [List.isPrefixOf_iff_prefix]), hnil]
    · have hne : a ≠ p := by
        intro hcontra
        exact hnd2.1 (hcontra ▸ hr)
      have hneg : ¬((fun n => p.isPrefixOf n) a = true) := by
        intro htrue
        exact hne (isPrefixOf_eq_of_length htrue (hlen a (List.mem_cons_self _ _))).symm
      rw [List.filter_cons_of_neg hneg,
        ih (fun n hn => hlen n (List.mem_cons_of_mem _ hn)) hnd2.2 hr]

/-- Resolving a stored entry's full hash through `from_ref` yields that hash
(it is never the token `"HEAD"`, and it prefix-matches exactly one name). -/
theorem fromRef_hash {C : List Entry} {fs : FS}
    (hfs : fs.objects = objsOf C) (hnd : (C.map entryHash).Nodup)
    {e : Entry} (he : e ∈ C) (led : Ledger) :
    led.fromRef fs (entryHash e) = .ok (entryHash e) := by
  have hne : entryHash e ≠ headToken := by
    intro hcontra
    have hlen : (entryHash e).length = headToken.length := congrArg List.length hcontra
    rw [entryHash_length] at hlen
    simp [headToken] at hlen
  have hnames : (fs.objects.map Prod.fst) = C.map entryHash := by
    rw [hfs]; simp [objsOf]
  have hfind : Ledger.findHash fs (entryHash e) = [entryHash e] := by
    unfold Ledger.findHash
    rw [hnames]
    exact filter_prefix_eq
      (fun n hn => by
        obtain ⟨x, _, rfl⟩ := List.mem_map.mp hn
        rw [entryHash_length, entryHash_length])
      hnd (List.mem_map_of_mem entryHash he)
  unfold Ledger.fromRef
  rw [if_neg hne, hfind]

/-- Hash-linkedness of a newest-first chain: each `Record` points at the hash
of the next entry, and the list ends at a single `Origin`. -/
inductive Linked : List Entry → Prop
  | single (year : Nat) (ts : DT) : Linked [Entry.Origin year ts]
  | link (ts : DT) (date : ND) (name descr : List Nat) (lines : List EntryLine)
      (e : Entry) (D : List Entry) :
      Linked (e :: D) →
      Linked (Entry.Record ts date name descr lines (entryHash e) :: e :: D)

/-- Walking `show_log` from the head of a linked chain visits exactly the
chain, newest first, ending at the `Origin`. -/
theorem showLog_walk {C : List Entry} {fs : FS}
    (hfs : fs.objects = objsOf C)
    (hwf : ∀ x ∈ C, x.wf) (hnd : (C.map entryHash).Nodup) :
    ∀ {D : List Entry}, Linked D →
      (∀ x ∈ D, x ∈ C) →
      ∀ (fuel : Nat), D.length ≤ fuel →
      ∀ (led : Ledger), cacheOK fs led.hashMap →
      ∃ cm2, Ledger.showLogEntries fs fuel led
            (entryHash (D.headD (Entry.Origin 0 ⟨0⟩)))
          = .ok (D, { led with hashMap := cm2 }) ∧ cacheOK fs cm2 := by
  intro D hlink
  induction hlink with
  | single year ts =>
    intro hsub fuel hfuel led hcm
    cases fuel with
    | zero => simp at hfuel
    | succ f =>
      obtain ⟨cm2, hget, hok2⟩ :=
        getEntry_chain hfs hwf hnd (hsub _ (List.mem_cons_self _ _)) led hcm
      obtain ⟨cm3, hget2, hok3⟩ :=
        getEntry_chain hfs hwf hnd (hsub _ (List.mem_cons_self _ _))
          { led with hashMap := cm2 } hok2
      refine ⟨cm3, ?_, hok3⟩
      rw [Ledger.showLogEntries]
      simp only [List.headD_cons]
      rw [hget]
      simp only []
      rw [hget2]
  | link ts date name descr lines e2 D2 hlink2 ih =>
    intro hsub fuel hfuel led hcm
    cases fuel with
    | zero => simp at hfuel
    | succ f =>
      obtain ⟨cm2, hget, hok2⟩ :=
        getEntry_chain hfs hwf hnd (hsub _ (List.mem_cons_self _ _)) led hcm
      have hsub2 : ∀ x ∈ e2 :: D2, x ∈ C :=
        fun x hx => hsub x (List.mem_cons_of_mem _ hx)
      have hfuel2 : (e2 :: D2).length ≤ f := by
        simp only [List.length_cons] at hfuel ⊢
        omega
      obtain ⟨cm3, hwalk, hok3⟩ := ih hsub2 f hfuel2 { led with hashMap := cm2 } hok2
      simp only [List.headD_cons] at hwalk
      refine ⟨cm3, ?_, hok3⟩
      rw [Ledger.showLogEntries]
      simp only [List.headD_cons]
      rw [hget]
      simp only []
      rw [fromRef_hash hfs hnd (hsub2 _ (List.mem_cons_self _ _))]
      simp only []
      rw [hwalk]

/-- The chains the adds construct are hash-linked. -/
theorem chainLinked : ∀ (specs : List RecSpec) (e : Entry) (D : List Entry),
    Linked (e :: D) →
    Linked ((chainRecords (entryHash e) specs).reverse ++ (e :: D)) := by
  intro specs
  induction specs with
  | nil => intro e D h; simpa using h
  | cons sp rest ih =>
    intro e D h
    have hstep : Linked (mkRec sp (entryHash e) :: e :: D) := Linked.link _ _ _ _ _ _ _ h
    have := ih (mkRec sp (entryHash e)) (e :: D) hstep
    rw [chainRecords]
    simpa [List.append_assoc] using this

/-- The head of the newest-first chain is the chain tip. -/
theorem chainTip_head (d : Entry) : ∀ (specs : List RecSpec) (e : Entry) (D : List Entry),
    ((chainRecords (entryHash e) specs).reverse ++ (e :: D)).headD d
      = chainTip e specs := by
  intro specs
  induction specs with
  | nil => intro e D; rfl
  | cons sp rest ih =>
    intro e D
    rw [chainRecords]
    have := ih (mkRec sp (entryHash e)) (e :: D)
    show ((mkRec sp (entryHash e) :: chainRecords (entryHash (mkRec sp (entryHash e))) rest).reverse
        ++ (e :: D)).headD d = chainTip e (sp :: rest)
    rw [List.reverse_cons, List.append_assoc]
    exact this

/-- Membership transfer between the newest-first walk order and the stored
(oldest-first) chain. -/
theorem chain_mem (R : List Entry) (e : Entry) :
    ∀ x ∈ R.reverse ++ [e], x ∈ e :: R := by
  intro x hx
  rcases List.mem_append.mp hx with h | h
  · exact List.mem_cons_of_mem _ (List.mem_reverse.mp h)
  · rw [List.mem_singleton.mp h]
    exact List.mem_cons_self _ _

/-! ## Support lemmas for the remaining claims -/

/-- Writing an object keeps every name readable. -/
theorem objGet_fsWriteObject_isSome {objs : List (List Nat × List Nat)}
    {m : List Nat} (h : (objGet objs m).isSome = true) (n c : List Nat) :
    (objGet (fsWriteObject objs n c) m).isSome = true := by
  induction objs with
  | nil => simp [objGet] at h
  | cons p rest ih =>
    obtain ⟨pn, pc⟩ := p
    by_cases hpn : pn = n
    · subst hpn
      rw [show fsWriteObject ((pn, pc) :: rest) pn c = (pn, c) :: rest from by
        simp [fsWriteObject]]
      by_cases hm : pn = m
      · simp [objGet, hm]
      · rw [show objGet ((pn, pc) :: rest) m = objGet rest m from by simp [objGet, hm]] at h
        rw [show objGet ((pn, c) :: rest) m = objGet rest m from by simp [objGet, hm]]
        exact h
    · rw [show fsWriteObject ((pn, pc) :: rest) n c
          = (pn, pc) :: fsWriteObject rest n c from by simp [fsWriteObject, hpn]]
      by_cases hm : pn = m
      · simp [objGet, hm]
      · rw [show objGet ((pn, pc) :: rest) m = objGet rest m from by simp [objGet, hm]] at h
        rw [show objGet ((pn, pc) :: fsWriteObject rest n c) m
            = objGet (fsWriteObject rest n c) m from by simp [objGet, hm]]
        exact ih h

/-- A just-written object is readable under its name. -/
theorem objGet_fsWriteObject_self (objs : List (List Nat × List Nat))
    (n c : List Nat) : objGet (fsWriteObject objs n c) n = some c := by
  induction objs with
  | nil => simp [fsWriteObject, objGet]
  | cons p rest ih =>
    obtain ⟨pn, pc⟩ := p
    by_cases hpn : pn = n
    · subst hpn
      rw [show fsWriteObject ((pn, pc) :: rest) pn c = (pn, c) :: rest from by
        simp [fsWriteObject]]
      simp [objGet]
    · rw [show fsWriteObject ((pn, pc) :: rest) n c
          = (pn, pc) :: fsWriteObject rest n c from by simp [fsWriteObject, hpn]]
      rw [show objGet ((pn, pc) :: fsWriteObject rest n c) n
          = objGet (fsWriteObject rest n c) n from by simp [objGet, hpn]]
      exact ih

/-- Reading one byte from a nonempty stream. -/
theorem rdU8_cons (b : Nat) (rest : List Nat) :
    rdUInt 1 (b :: rest) = .ok (b, rest) := by
  unfold rdUInt pBind rdBytes pPure
  rw [if_pos (by simp)]
  simp [leVal]

/-- A stream whose first byte is not the gzip magic has no gzip header. -/
theorem hasGzipHeader_cons_ne {b : Nat} (hb : b ≠ 0x1f) (l : List Nat) :
    hasGzipHeader (b :: l) = false := by
  unfold hasGzipHeader
  simp [hb]

/-- `Entry::deserialize` on a non-gzip stream is the raw payload decoder. -/
theorem deserialize_raw {bs : List Nat} (h : hasGzipHeader bs = false) :
    Entry.deserialize bs
      = (match Entry.decodeCore bs with
         | .ok (e, _) => .ok e
         | .error err => .error err) := by
  unfold Entry.deserialize
  rw [h, if_neg (by simp)]

/-- `write_all` into the `Vec<u8>` buffer writer appends the buffer. -/
theorem writeAll_buf (s buf : List Nat) :
    writeAll bufWriter s buf = .ok (s ++ buf) := by
  cases buf with
  | nil => simp [writeAll, writeAllGo]
  | cons b rest =>
    show writeAllGo bufWriter (rest.length + 1) s (b :: rest) = _
    unfold writeAllGo bufWriter
    simp only []
    rw [if_neg (by simp), List.drop_length, writeAllGo_nil]

/-- `write_all` into the discarding `empty()` writer succeeds. -/
theorem writeAll_empty (buf : List Nat) :
    writeAll emptyWriter () buf = .ok () := by
  cases buf with
  | nil => simp [writeAll, writeAllGo]
  | cons b rest =>
    show writeAllGo emptyWriter (rest.length + 1) () (b :: rest) = _
    unfold writeAllGo emptyWriter
    simp only []
    rw [if_neg (by simp), List.drop_length, writeAllGo_nil]

/-- `Entry::serialize` to the empty sink. -/
theorem serialize_empty (e : Entry) :
    Entry.serialize emptyWriter () e = .ok ((), entryHash e) := by
  rw [serialize_eq, writeAll_empty]
  rfl

theorem ndFromDays_some {days : Int} (h1 : daysMin ≤ days) (h2 : days ≤ daysMax) :
    ndFromDays days = some ⟨days⟩ := by
  unfold ndFromDays
  rw [if_pos ⟨h1, h2⟩]

theorem dtFromTimestamp_some {secs : Int} (h1 : tsMin ≤ secs) (h2 : secs ≤ tsMax) :
    dtFromTimestamp secs = some ⟨secs⟩ := by
  unfold dtFromTimestamp
  rw [if_pos ⟨h1, h2⟩]

theorem ndFromDays_none {days : Int} (h : ¬(daysMin ≤ days ∧ days ≤ daysMax)) :
    ndFromDays days = none := by
  unfold ndFromDays
  rw [if_neg h]

theorem dtFromTimestamp_none {secs : Int} (h : ¬(tsMin ≤ secs ∧ secs ≤ tsMax)) :
    dtFromTimestamp secs = none := by
  unfold dtFromTimestamp
  rw [if_neg h]

/-- Decoding fails with an invalid-data error when the name field of a
`Record` payload is not valid UTF-8. -/
theorem deserialize_invalid_utf8_name {days secs : Int} {bad : List Nat}
    (dlen : Nat) (rest : List Nat)
    (hd1 : daysMin ≤ days) (hd2 : days ≤ daysMax)
    (ht1 : tsMin ≤ secs) (ht2 : secs ≤ tsMax)
    (hblen : bad.length < 2 ^ 32) (hdlen : dlen < 2 ^ 32)
    (hbad : utf8Valid bad = false) :
    Entry.deserialize
        ([0x01] ++ leBytes 4 (toTwos 4 days) ++ leBytes 8 (toTwos 8 secs)
          ++ leBytes 4 bad.length ++ leBytes 4 dlen ++ bad ++ rest)
      = .error ⟨.invalidData, "Failed to read string"⟩ := by
  have h32 : -(2 ^ 31) ≤ days ∧ days < 2 ^ 31 := by
    simp only [daysMin, daysMax] at hd1 hd2; constructor <;> omega
  have h64 : -(2 ^ 63) ≤ secs ∧ secs < 2 ^ 63 := by
    simp only [tsMin, tsMax] at ht1 ht2; constructor <;> omega
  simp only [List.append_assoc, List.cons_append, List.nil_append]
  rw [deserialize_raw (hasGzipHeader_cons_ne (by norm_num) _)]
  unfold Entry.decodeCore pBind
  rw [rdU8_cons]
  simp only []
  rw [(pExact_rdInt_32 h32.1 h32.2).1]
  simp only []
  rw [show pOfOption (ndFromDays days)
      (⟨.invalidData, "Invalid event date"⟩ : IOError)
      = pPure (⟨days⟩ : ND) from by rw [ndFromDays_some hd1 hd2]; rfl]
  simp only [pPure]
  rw [(pExact_rdInt_64 h64.1 h64.2).1]
  simp only []
  rw [show pOfOption (dtFromTimestamp secs)
      (⟨.invalidData, "Invalid timestamp"⟩ : IOError)
      = pPure (⟨secs⟩ : DT) from by rw [dtFromTimestamp_some ht1 ht2]; rfl]
  simp only [pPure]
  rw [(pExact_rdU32 hblen).1]
  simp only []
  rw [(pExact_rdU32 hdlen).1]
  simp only []
  unfold rdString pBind
  rw [(pExact_rdBytes rfl).1]
  simp only []
  rw [hbad]
  rfl

/-- `EntryLine` decoding fails with an invalid-data error on a side byte
outside `{0x00, 0x01}`. -/
theorem line_invalid_side (alen amt b2 : Nat) (rest : List Nat)
    (halen : alen < 2 ^ 32) (hamt : amt < 2 ^ 64) :
    EntryLine.deserializeP (leBytes 4 alen ++ leBytes 8 amt ++ ((b2 + 2) :: rest))
      = .error ⟨.invalidData, "Invalid side byte"⟩ := by
  simp only [List.append_assoc, List.cons_append, List.nil_append]
  unfold EntryLine.deserializeP pBind
  rw [(pExact_rdU32 halen).1]
  simp only []
  rw [(pExact_rdU64 hamt).1]
  simp only []
  rw [rdU8_cons]
  rfl

/-- `EntryLine` decoding fails with an invalid-data error on a description
flag outside `{0x00, 0x01}`. -/
theorem line_invalid_flag (alen amt f2 : Nat) (rest : List Nat)
    (halen : alen < 2 ^ 32) (hamt : amt < 2 ^ 64) :
    EntryLine.deserializeP
        (leBytes 4 alen ++ leBytes 8 amt ++ (0x01 :: (f2 + 2) :: rest))
      = .error ⟨.invalidData, "Invalid description flag"⟩ := by
  simp only [List.append_assoc, List.cons_append, List.nil_append]
  unfold EntryLine.deserializeP pBind
  rw [(pExact_rdU32 halen).1]
  simp only []
  rw [(pExact_rdU64 hamt).1]
  simp only []
  rw [rdU8_cons]
  simp only [pPure]
  rw [rdU8_cons]
  rfl

/-- `Entry` decoding of a non-gzip stream fails with an invalid-data error on
a discriminant byte outside `{0x00, 0x01}`. -/
theorem deserialize_unknown_discriminant (b2 : Nat) (rest : List Nat)
    (hb : b2 + 2 ≠ 0x1f) :
    Entry.deserialize ((b2 + 2) :: rest)
      = .error ⟨.invalidData, "Unknown discriminant"⟩ := by
  rw [deserialize_raw (hasGzipHeader_cons_ne hb _)]
  unfold Entry.decodeCore pBind
  rw [rdU8_cons]
  rfl

/-- `Entry` decoding fails with an invalid-data error on an `Origin` timestamp
that chrono cannot represent. -/
theorem deserialize_invalid_timestamp (y : Nat) (secs : Int) (rest : List Nat)
    (hy : y < 2 ^ 64) (hlo : -(2 ^ 63) ≤ secs) (hhi : secs < 2 ^ 63)
    (hbad : ¬(tsMin ≤ secs ∧ secs ≤ tsMax)) :
    Entry.deserialize ([0x00] ++ leBytes 8 y ++ leBytes 8 (toTwos 8 secs) ++ rest)
      = .error ⟨.invalidData, "Invalid timestamp"⟩ := by
  simp only [List.append_assoc, List.cons_append, List.nil_append]
  rw [deserialize_raw (hasGzipHeader_cons_ne (by norm_num) _)]
  unfold Entry.decodeCore pBind
  rw [rdU8_cons]
  simp only []
  rw [(pExact_rdU64 hy).1]
  simp only []
  rw [(pExact_rdInt_64 hlo hhi).1]
  simp only []
  rw [show pOfOption (dtFromTimestamp secs)
      (⟨.invalidData, "Invalid timestamp"⟩ : IOError)
      = pFail ⟨.invalidData, "Invalid timestamp"⟩ from by
    rw [dtFromTimestamp_none hbad]; rfl]
  rfl

/-- `Entry` decoding fails with an invalid-data error on a `Record` event date
that chrono cannot represent. -/
theorem deserialize_invalid_date (days : Int) (rest : List Nat)
    (hlo : -(2 ^ 31) ≤ days) (hhi : days < 2 ^ 31)
    (hbad : ¬(daysMin ≤ days ∧ days ≤ daysMax)) :
    Entry.deserialize ([0x01] ++ leBytes 4 (toTwos 4 days) ++ rest)
      = .error ⟨.invalidData, "Invalid event date"⟩ := by
  simp only [List.append_assoc, List.cons_append, List.nil_append]
  rw [deserialize_raw (hasGzipHeader_cons_ne (by norm_num) _)]
  unfold Entry.decodeCore pBind
  rw [rdU8_cons]
  simp only []
  rw [(pExact_rdInt_32 hlo hhi).1]
  simp only []
  rw [show pOfOption (ndFromDays days)
      (⟨.invalidData, "Invalid event date"⟩ : IOError)
      = pFail ⟨.invalidData, "Invalid event date"⟩ from by
    rw [ndFromDays_none hbad]; rfl]
  rfl

/-- Truncation at the whole-stream level: `Entry::deserialize` fails with an
unexpected-end-of-input error on every strict prefix of a raw canonical
encoding. -/
theorem deserialize_truncated {e : Entry} (h : e.wf) {k : Nat}
    (hk : k < e.encode.length) :
    ∃ m, Entry.deserialize (e.encode.take k) = .error ⟨.unexpectedEof, m⟩ := by
  obtain ⟨m, hm⟩ := decodeCore_truncated h hk
  refine ⟨m, ?_⟩
  rw [deserialize_raw (hasGzipHeader_encode_take e k), hm]

/-! ## Digest collisions exist in principle

The digest has at most `2 ^ 256` possible values, while there are more than
`2 ^ 256` valid entries (already among records whose 37-byte ASCII names
vary), so by pigeonhole two distinct valid entries share their hash string.
No explicit pair is computable, but the existence refutes unconditional
hash uniqueness. -/

theorem leVal_lt {l : List Nat} (h : ∀ b ∈ l, b < 256) :
    leVal l < 256 ^ l.length := by
  induction l with
  | nil => simp [leVal]
  | cons b rest ih =>
    have hb := h b (List.mem_cons_self _ _)
    have hr := ih (fun x hx => h x (List.mem_cons_of_mem _ hx))
    show b + 256 * leVal rest < 256 ^ (rest.length + 1)
    rw [pow_succ]
    nlinarith

theorem leVal_inj : ∀ {l1 l2 : List Nat}, l1.length = l2.length →
    (∀ b ∈ l1, b < 256) → (∀ b ∈ l2, b < 256) →
    leVal l1 = leVal l2 → l1 = l2 := by
  intro l1
  induction l1 with
  | nil =>
    intro l2 hlen _ _ _
    cases l2 with
    | nil => rfl
    | cons => simp at hlen
  | cons b1 r1 ih =>
    intro l2 hlen h1 h2 hval
    cases l2 with
    | nil => simp at hlen
    | cons b2 r2 =>
      have hb1 := h1 b1 (List.mem_cons_self _ _)
      have hb2 := h2 b2 (List.mem_cons_self _ _)
      have hv : b1 + 256 * leVal r1 = b2 + 256 * leVal r2 := hval
      have hbeq : b1 = b2 := by omega
      have hreq : leVal r1 = leVal r2 := by omega
      subst hbeq
      rw [ih (by simpa using hlen) (fun x hx => h1 x (List.mem_cons_of_mem _ hx))
        (fun x hx => h2 x (List.mem_cons_of_mem _ hx)) hreq]

/-- A 37-character ASCII name from a function on finite types. -/
def asciiName (v : Fin 37 → Fin 128) : List Nat := List.ofFn (fun i => (v i : Nat))

/-- A family of more than `2 ^ 256` pairwise-distinct valid entries. -/
def pigeonEntry (v : Fin 37 → Fin 128) : Entry :=
  Entry.Record ⟨0⟩ ⟨0⟩ (asciiName v) [] [] (List.replicate 64 97)

theorem pigeonEntry_wf (v : Fin 37 → Fin 128) : (pigeonEntry v).wf := by
  refine ⟨by decide, by decide, ⟨?_, ?_⟩, ⟨by decide, by decide⟩,
    by decide, ?_, by simp, ?_⟩
  · apply utf8Valid_of_ascii
    intro b hb
    unfold asciiName at hb
    obtain ⟨i, hi⟩ := (List.mem_ofFn _ _).mp hb
    rw [← hi]
    exact (v i).isLt
  · unfold asciiName
    rw [List.length_ofFn]
    norm_num
  · intro l hl
    cases hl
  · apply utf8Valid_of_ascii
    intro b hb
    rw [List.eq_of_mem_replicate hb]
    norm_num

theorem pigeonEntry_inj : Function.Injective pigeonEntry := by
  intro v1 v2 heq
  have hname : asciiName v1 = asciiName v2 := by
    injection heq
  unfold asciiName at hname
  have := List.ofFn_inj.mp hname
  funext i
  have hx := congrFun this i
  exact Fin.ext (by simpa using hx)

/-- Two distinct valid entries whose SHA-256 digests agree exist. -/
theorem sha256_collision :
    ∃ e1 e2 : Entry, e1.wf ∧ e2.wf ∧ e1 ≠ e2 ∧
      sha256 e1.encode = sha256 e2.encode := by
  have hcard : Fintype.card (Fin (2 ^ 256)) < Fintype.card (Fin 37 → Fin 128) := by
    rw [Fintype.card_fin, Fintype.card_fun, Fintype.card_fin, Fintype.card_fin]
    have h128 : (128 : Nat) ^ 37 = 2 ^ 259 := by
      rw [show (128 : Nat) = 2 ^ 7 from by norm_num, ← pow_mul]
    rw [h128]
    exact Nat.pow_lt_pow_right (by norm_num) (by norm_num)
  have hmap : ∀ v : Fin 37 → Fin 128,
      leVal (sha256 (pigeonEntry v).encode) < 2 ^ 256 := by
    intro v
    have := leVal_lt (sha256_bytes_lt ((pigeonEntry v).encode))
    rw [sha256_length] at this
    calc leVal (sha256 (pigeonEntry v).encode) < 256 ^ 32 := this
      _ = 2 ^ 256 := by norm_num
  obtain ⟨v1, v2, hne, heq⟩ := Fintype.exists_ne_map_eq_of_card_lt
    (fun v : Fin 37 → Fin 128 =>
      (⟨leVal (sha256 (pigeonEntry v).encode), hmap v⟩ : Fin (2 ^ 256)))
    hcard
  refine ⟨pigeonEntry v1, pigeonEntry v2, pigeonEntry_wf v1, pigeonEntry_wf v2,
    fun hc => hne (pigeonEntry_inj hc), ?_⟩
  have hval : leVal (sha256 (pigeonEntry v1).encode)
      = leVal (sha256 (pigeonEntry v2).encode) := by
    have := congrArg Fin.val heq
    simpa using this
  exact leVal_inj
    (by rw [sha256_length, sha256_length])
    (sha256_bytes_lt _) (sha256_bytes_lt _) hval

/-! ## Shared statement scaffolding for the claims -/

/-- The ledger state `init` leaves in memory: the `Origin` at HEAD, its hash,
and an empty decode cache. -/
def originLedger (year : Nat) (now : DT) : Ledger :=
  ⟨Entry.Origin year now, entryHash (Entry.Origin year now), []⟩

/-- The file-system state `init` leaves on disk: `HEAD` holding the `Origin`'s
hash and the object store holding just the `Origin`. -/
def originFS (year : Nat) (now : DT) : FS :=
  ⟨entryHash (Entry.Origin year now), objsOf [Entry.Origin year now]⟩

/-- After the `add_entry` runs of `specs`, `show_log` started from the
resolved HEAD visits exactly the added `Record`s newest first and then the
`Origin`, and stops there. -/
def chainWalkSpec (year : Nat) (now : DT) (specs : List RecSpec) : Prop :=
  ∃ led fs cm2,
    addAll specs (originLedger year now) (originFS year now) = .ok (led, fs) ∧
    Ledger.fromRef led fs headToken = .ok led.headHash ∧
    Ledger.showLogEntries fs (specs.length + 1) led led.headHash
      = .ok ((chainRecords (entryHash (Entry.Origin year now)) specs).reverse
               ++ [Entry.Origin year now],
             { led with hashMap := cm2 }) ∧
    (chainRecords (entryHash (Entry.Origin year now)) specs).length
      = specs.length ∧
    ∀ r ∈ chainRecords (entryHash (Entry.Origin year now)) specs,
      ∃ ts date name descr lines prev,
        r = Entry.Record ts date name descr lines prev

/-- Whenever `serialize` succeeds the returned hash is the digest of the
entry's canonical encoding — independent of the sink and its prior state. -/
theorem serialize_hash {σ : Type} (w : MWriter σ) (s : σ) (e : Entry)
    {r : σ × List Nat} (h : Entry.serialize w s e = .ok r) :
    r.2 = entryHash e := by
  rw [serialize_eq] at h
  cases hw : writeAll w s (gzipCompress e.encode) with
  | error err =>
    rw [hw] at h
    exact Except.noConfusion h
  | ok s1 =>
    rw [hw] at h
    simp only [] at h
    cases hf : w.flush s1 with
    | error err =>
      rw [hf] at h
      exact Except.noConfusion h
    | ok s2 =>
      rw [hf] at h
      simp only [] at h
      injection h with h
      rw [← h]
      rfl

/-! ## The claims -/

/-- C1: for every valid `Entry` value, serialising to a byte buffer succeeds
and deserialising the produced byte stream returns an entry equal to the
original, exactly: `deserialize (serialize e) = ok e`. -/
theorem claim_C1 (e : Entry) (h : e.wf) :
    Entry.serialize bufWriter [] e = .ok (entryBytes e, entryHash e) ∧
    Entry.deserialize (entryBytes e) = .ok e :=
  ⟨serialize_buf e,
   show Entry.deserialize (gzipCompress e.encode) = .ok e from
     deserialize_gzip_encode h⟩

theorem claim_C1_witness :
    (Entry.Origin 2024 ⟨0⟩).wf ∧
    (Entry.serialize bufWriter [] (Entry.Origin 2024 ⟨0⟩)
        = .ok (entryBytes (Entry.Origin 2024 ⟨0⟩),
               entryHash (Entry.Origin 2024 ⟨0⟩)) ∧
      Entry.deserialize (entryBytes (Entry.Origin 2024 ⟨0⟩))
        = .ok (Entry.Origin 2024 ⟨0⟩)) :=
  ⟨by decide, claim_C1 _ (by decide)⟩

/-- C2: starting from a ledger whose only entry is an `Origin`, after the
`add_entry` calls of `specs` the HEAD reference resolves and walking the log
from it visits exactly the `specs.length` added `Record`s, newest first, then
the `Origin`, and stops there.  The hypothesis `hnd` makes the pairwise
distinctness of the stored entries' hash strings explicit (a SHA-256 collision
inside one chain would overwrite an object file and break the walk). -/
theorem claim_C2 (year : Nat) (now : DT) (specs : List RecSpec)
    (hy : year < 2 ^ 64) (hts : wfTs now) (hwfs : ∀ sp ∈ specs, sp.wf)
    (hnd : ((chainList (Entry.Origin year now) specs).map entryHash).Nodup) :
    chainWalkSpec year now specs := by
  have hrun := addAll_run specs (Entry.Origin year now) [] [] hnd
  refine ⟨⟨chainTip (Entry.Origin year now) specs,
           entryHash (chainTip (Entry.Origin year now) specs), []⟩,
          ⟨entryHash (chainTip (Entry.Origin year now) specs),
           objsOf (chainList (Entry.Origin year now) specs)⟩, ?_⟩
  have hwfAll : ∀ x ∈ chainList (Entry.Origin year now) specs, x.wf := by
    intro x hx
    rcases List.mem_cons.mp hx with rfl | hmem
    · exact ⟨hy, hts⟩
    · exact chainRecords_wf hwfs (Entry.Origin year now) x hmem
  have hfs0 : (⟨entryHash (chainTip (Entry.Origin year now) specs),
      objsOf (chainList (Entry.Origin year now) specs)⟩ : FS).objects
      = objsOf (chainList (Entry.Origin year now) specs) := rfl
  have hlink := chainLinked specs (Entry.Origin year now) [] (Linked.single year now)
  have hsub := chain_mem
    (chainRecords (entryHash (Entry.Origin year now)) specs) (Entry.Origin year now)
  have hcache : cacheOK
      (⟨entryHash (chainTip (Entry.Origin year now) specs),
        objsOf (chainList (Entry.Origin year now) specs)⟩ : FS)
      ([] : List (List Nat × Entry)) :=
    fun p hp => absurd hp (List.not_mem_nil p)
  obtain ⟨cm2, hshow, _⟩ := showLog_walk hfs0 hwfAll hnd hlink hsub
    (specs.length + 1)
    (by simp [List.length_append, List.length_reverse, chainRecords_length])
    ⟨chainTip (Entry.Origin year now) specs,
     entryHash (chainTip (Entry.Origin year now) specs), []⟩
    hcache
  rw [chainTip_head (Entry.Origin 0 ⟨0⟩) specs (Entry.Origin year now) []] at hshow
  refine ⟨cm2, hrun, ?_, hshow, chainRecords_length _ _,
    chainRecords_are_records _ _⟩
  unfold Ledger.fromRef
  rw [if_pos rfl]

theorem claim_C2_witness :
    (0 : Nat) < 2 ^ 64 ∧ wfTs ⟨0⟩ ∧ (∀ sp ∈ ([] : List RecSpec), sp.wf) ∧
    ((chainList (Entry.Origin 0 ⟨0⟩) []).map entryHash).Nodup ∧
    chainWalkSpec 0 ⟨0⟩ [] :=
  ⟨by decide, by decide, by simp, by simp [chainList, chainRecords],
   claim_C2 0 ⟨0⟩ [] (by decide) (by decide) (by simp)
     (by simp [chainList, chainRecords])⟩

/-- C3: `from_ref` resolves the literal token `"HEAD"` to the current HEAD
hash; any other token is a hash prefix over the stored object names — no match
fails as `NotFound`, a unique match returns that full stored hash (which the
prefix really starts), and two or more matches fail as `TooManyLinks`, an
error kind distinct from `NotFound` — never silently picking one. -/
theorem claim_C3 (led : Ledger) (fs : FS) (r : List Nat) (hr : r ≠ headToken) :
    Ledger.fromRef led fs headToken = .ok led.headHash ∧
    Ledger.findHash fs r
      = (fs.objects.map Prod.fst).filter (fun n => List.isPrefixOf r n) ∧
    (Ledger.findHash fs r = [] →
      Ledger.fromRef led fs r = .error ⟨.notFound, "ref not found"⟩) ∧
    (∀ h, Ledger.findHash fs r = [h] →
      Ledger.fromRef led fs r = .ok h ∧ List.isPrefixOf r h = true
        ∧ h ∈ fs.objects.map Prod.fst) ∧
    (∀ h1 h2 tl, Ledger.findHash fs r = h1 :: h2 :: tl →
      Ledger.fromRef led fs r = .error ⟨.tooManyLinks, "To many refs match"⟩) ∧
    ErrKind.tooManyLinks ≠ ErrKind.notFound := by
  refine ⟨?_, rfl, ?_, ?_, ?_, by intro hc; cases hc⟩
  · unfold Ledger.fromRef
    rw [if_pos rfl]
  · intro h0
    unfold Ledger.fromRef
    rw [if_neg hr, h0]
  · intro h hh
    have hmem : h ∈ Ledger.findHash fs r := by
      rw [hh]
      exact List.mem_singleton_self h
    have hfil := List.mem_filter.mp hmem
    refine ⟨?_, hfil.2, hfil.1⟩
    unfold Ledger.fromRef
    rw [if_neg hr, hh]
  · intro h1 h2 tl hh
    unfold Ledger.fromRef
    rw [if_neg hr, hh]

theorem claim_C3_witness :
    ([48] : List Nat) ≠ headToken ∧
    Ledger.fromRef ⟨Entry.Origin 0 ⟨0⟩, [], []⟩ ⟨[], []⟩ headToken
      = .ok (Ledger.headHash ⟨Entry.Origin 0 ⟨0⟩, [], []⟩) :=
  ⟨by decide,
   (claim_C3 ⟨Entry.Origin 0 ⟨0⟩, [], []⟩ ⟨[], []⟩ [48] (by decide)).1⟩

/-- C4: decoding fails with an error (never a value) on each malformed-input
shape: any strict prefix of a valid encoding (unexpected end of input), a
`Record` name field that is not valid UTF-8, a side byte or description-flag
byte outside `{0, 1}`, a leading discriminant byte other than `0` or `1`
(stated for non-gzip streams — a `0x1f` first byte enters the gzip path), and
a date or timestamp outside chrono's representable range (invalid-data). -/
theorem claim_C4 (e : Entry) (hew : e.wf) (k : Nat) (hk : k < e.encode.length)
    (days secs : Int) (bad : List Nat) (dlen : Nat) (rest1 : List Nat)
    (hd1 : daysMin ≤ days) (hd2 : days ≤ daysMax)
    (ht1 : tsMin ≤ secs) (ht2 : secs ≤ tsMax)
    (hblen : bad.length < 2 ^ 32) (hdlen : dlen < 2 ^ 32)
    (hbad : utf8Valid bad = false)
    (alen amt b2 f2 : Nat) (rest2 rest3 : List Nat)
    (halen : alen < 2 ^ 32) (hamt : amt < 2 ^ 64)
    (bdisc : Nat) (rest4 : List Nat) (hdisc : bdisc + 2 ≠ 0x1f)
    (y : Nat) (secs2 : Int) (rest5 : List Nat)
    (hy : y < 2 ^ 64) (hlo : -(2 ^ 63) ≤ secs2) (hhi : secs2 < 2 ^ 63)
    (hbadts : ¬(tsMin ≤ secs2 ∧ secs2 ≤ tsMax))
    (days2 : Int) (rest6 : List Nat)
    (hlo2 : -(2 ^ 31) ≤ days2) (hhi2 : days2 < 2 ^ 31)
    (hbadd : ¬(daysMin ≤ days2 ∧ days2 ≤ daysMax)) :
    (∃ m, Entry.deserialize (e.encode.take k) = .error ⟨.unexpectedEof, m⟩) ∧
    Entry.deserialize
        ([0x01] ++ leBytes 4 (toTwos 4 days) ++ leBytes 8 (toTwos 8 secs)
          ++ leBytes 4 bad.length ++ leBytes 4 dlen ++ bad ++ rest1)
      = .error ⟨.invalidData, "Failed to read string"⟩ ∧
    EntryLine.deserializeP
        (leBytes 4 alen ++ leBytes 8 amt ++ ((b2 + 2) :: rest2))
      = .error ⟨.invalidData, "Invalid side byte"⟩ ∧
    EntryLine.deserializeP
        (leBytes 4 alen ++ leBytes 8 amt ++ (0x01 :: (f2 + 2) :: rest3))
      = .error ⟨.invalidData, "Invalid description flag"⟩ ∧
    Entry.deserialize ((bdisc + 2) :: rest4)
      = .error ⟨.invalidData, "Unknown discriminant"⟩ ∧
    Entry.deserialize ([0x00] ++ leBytes 8 y ++ leBytes 8 (toTwos 8 secs2) ++ rest5)
      = .error ⟨.invalidData, "Invalid timestamp"⟩ ∧
    Entry.deserialize ([0x01] ++ leBytes 4 (toTwos 4 days2) ++ rest6)
      = .error ⟨.invalidData, "Invalid event date"⟩ :=
  ⟨deserialize_truncated hew hk,
   deserialize_invalid_utf8_name dlen rest1 hd1 hd2 ht1 ht2 hblen hdlen hbad,
   line_invalid_side alen amt b2 rest2 halen hamt,
   line_invalid_flag alen amt f2 rest3 halen hamt,
   deserialize_unknown_discriminant bdisc rest4 hdisc,
   deserialize_invalid_timestamp y secs2 rest5 hy hlo hhi hbadts,
   deserialize_invalid_date days2 rest6 hlo2 hhi2 hbadd⟩

theorem claim_C4_witness :
    utf8Valid [255] = false ∧ 0 < (Entry.Origin 0 ⟨0⟩).encode.length ∧
    ¬(tsMin ≤ (2 ^ 63 - 1 : Int) ∧ (2 ^ 63 - 1 : Int) ≤ tsMax) ∧
    ¬(daysMin ≤ (2 ^ 31 - 1 : Int) ∧ (2 ^ 31 - 1 : Int) ≤ daysMax) ∧
    (∃ m, Entry.deserialize ((Entry.Origin 0 ⟨0⟩).encode.take 0)
        = .error ⟨.unexpectedEof, m⟩) :=
  ⟨by decide, by decide, by decide, by decide,
   (claim_C4 (Entry.Origin 0 ⟨0⟩) (by decide) 0 (by decide) 0 0 [255] 0 []
     (by decide) (by decide) (by decide) (by decide) (by decide) (by decide)
     (by decide) 0 0 0 0 [] [] (by decide) (by decide) 0 [] (by decide)
     0 (2 ^ 63 - 1) [] (by decide) (by decide) (by decide) (by decide)
     (2 ^ 31 - 1) [] (by decide) (by decide) (by decide)).1⟩

/-- C5: `add_entry` writes the new entry's bytes into the object store
strictly before updating HEAD — its file-system trace is exactly
`[putObject hash bytes, setHead hash]` — and after every prefix of that trace
(the states a crash between the writes can leave) the persisted HEAD still
names a stored object: never a dangling HEAD pointer, at worst an
unreferenced object. -/
theorem claim_C5 (led : Ledger) (fs : FS) (now : DT) (eventDate : ND)
    (name descr : List Nat) (lines : List EntryLine)
    (hinv : (objGet fs.objects fs.headFile).isSome = true) :
    ∃ (e : Entry) (hash bytes : List Nat),
      e = Entry.Record now eventDate name descr lines led.headHash ∧
      hash = entryHash e ∧ bytes = entryBytes e ∧
      Ledger.addEntry led fs now eventDate name descr lines
        = .ok ({ head := e, headHash := hash, hashMap := led.hashMap },
               applyOps fs (addEntryOps hash bytes), hash) ∧
      addEntryOps hash bytes = [FSOp.putObject hash bytes, FSOp.setHead hash] ∧
      ∀ k, k ≤ 2 →
        (objGet (applyOps fs ((addEntryOps hash bytes).take k)).objects
            (applyOps fs ((addEntryOps hash bytes).take k)).headFile).isSome
          = true := by
  refine ⟨Entry.Record now eventDate name descr lines led.headHash, _, _,
    rfl, rfl, rfl, ?_, rfl, ?_⟩
  · unfold Ledger.addEntry
    rw [serialize_buf]
  · intro k hk
    interval_cases k
    · exact hinv
    · exact objGet_fsWriteObject_isSome hinv _ _
    · show (objGet (fsWriteObject fs.objects
          (entryHash (Entry.Record now eventDate name descr lines led.headHash))
          (entryBytes (Entry.Record now eventDate name descr lines led.headHash)))
        (entryHash (Entry.Record now eventDate name descr lines led.headHash))).isSome
        = true
      rw [objGet_fsWriteObject_self]
      rfl

theorem claim_C5_witness :
    (objGet [([0], [])] [0]).isSome = true ∧
    ∃ (e : Entry) (hash bytes : List Nat),
      e = Entry.Record ⟨0⟩ ⟨0⟩ [] [] [] [] ∧
      hash = entryHash e ∧ bytes = entryBytes e ∧
      Ledger.addEntry ⟨Entry.Origin 0 ⟨0⟩, [], []⟩ ⟨[0], [([0], [])]⟩
          ⟨0⟩ ⟨0⟩ [] [] []
        = .ok ({ head := e, headHash := hash, hashMap := [] },
               applyOps ⟨[0], [([0], [])]⟩ (addEntryOps hash bytes), hash) ∧
      addEntryOps hash bytes = [FSOp.putObject hash bytes, FSOp.setHead hash] ∧
      ∀ k, k ≤ 2 →
        (objGet (applyOps ⟨[0], [([0], [])]⟩
              ((addEntryOps hash bytes).take k)).objects
            (applyOps ⟨[0], [([0], [])]⟩
              ((addEntryOps hash bytes).take k)).headFile).isSome
          = true :=
  ⟨by decide,
   claim_C5 ⟨Entry.Origin 0 ⟨0⟩, [], []⟩ ⟨[0], [([0], [])]⟩ ⟨0⟩ ⟨0⟩ [] [] []
     (by decide)⟩

/-- C6: the hash `serialize` returns depends only on the `Entry` value, never
on the sink: the buffer and empty sinks return the same hash, any two
successful runs to any sinks agree, and every successful run returns the
digest of the canonical encoding. -/
theorem claim_C6 (e : Entry) :
    Entry.serialize bufWriter [] e = .ok (entryBytes e, entryHash e) ∧
    Entry.serialize emptyWriter () e = .ok ((), entryHash e) ∧
    (∀ (σ1 σ2 : Type) (w1 : MWriter σ1) (w2 : MWriter σ2) (s1 : σ1) (s2 : σ2)
        (r1 : σ1 × List Nat) (r2 : σ2 × List Nat),
      Entry.serialize w1 s1 e = .ok r1 → Entry.serialize w2 s2 e = .ok r2 →
      r1.2 = r2.2) ∧
    ∀ (σ : Type) (w : MWriter σ) (s : σ) (r : σ × List Nat),
      Entry.serialize w s e = .ok r → r.2 = entryHash e :=
  ⟨serialize_buf e, serialize_empty e,
   fun _ _ w1 w2 s1 s2 r1 r2 h1 h2 =>
     (serialize_hash w1 s1 e h1).trans (serialize_hash w2 s2 e h2).symm,
   fun _ w s r h => serialize_hash w s e h⟩

/-- C7: `TeeWriter::write` forwards the buffer to the first writer and the
accepted prefix to the second, returns the smaller of the two accepted
counts — never exceeding what either sink accepted — and surfaces either
side's error; `flush` flushes both writers. -/
theorem claim_C7 {σ1 σ2 : Type} (w1 : MWriter σ1) (w2 : MWriter σ2)
    (s : σ1 × σ2) (buf : List Nat) :
    TeeWriter w1 w2 = ⟨teeWrite w1 w2, teeFlush w1 w2⟩ ∧
    (∀ s1 n1 s2 n2, w1.write s.1 buf = .ok (s1, n1) →
      w2.write s.2 (buf.take n1) = .ok (s2, n2) →
      teeWrite w1 w2 s buf = .ok ((s1, s2), min n1 n2)
        ∧ min n1 n2 ≤ n1 ∧ min n1 n2 ≤ n2) ∧
    (∀ err, w1.write s.1 buf = .error err →
      teeWrite w1 w2 s buf = .error err) ∧
    (∀ s1 n1 err, w1.write s.1 buf = .ok (s1, n1) →
      w2.write s.2 (buf.take n1) = .error err →
      teeWrite w1 w2 s buf = .error err) ∧
    ∀ t1 t2, w1.flush s.1 = .ok t1 → w2.flush s.2 = .ok t2 →
      teeFlush w1 w2 s = .ok (t1, t2) := by
  refine ⟨rfl, ?_, ?_, ?_, ?_⟩
  · intro s1 n1 s2 n2 h1 h2
    refine ⟨?_, Nat.min_le_left _ _, Nat.min_le_right _ _⟩
    unfold teeWrite
    rw [h1]
    simp only []
    rw [h2]
  · intro err h1
    unfold teeWrite
    rw [h1]
  · intro s1 n1 err h1 h2
    unfold teeWrite
    rw [h1]
    simp only []
    rw [h2]
  · intro t1 t2 h1 h2
    unfold teeFlush
    rw [h1]
    simp only []
    rw [h2]

/-- C8: `Ledger::init` fails when a chain already exists at the target
location, and otherwise creates a fresh chain whose only entry is an `Origin`
for the given year, stored in the object store under its hash, with the HEAD
file containing that hash and the object readable back under it. -/
theorem claim_C8 (year : Nat) (now : DT) :
    Ledger.init year now true
      = .error ⟨.directoryNotEmpty, "Directory isn't empty"⟩ ∧
    Ledger.init year now false
      = .ok (⟨Entry.Origin year now, entryHash (Entry.Origin year now), []⟩,
             ⟨entryHash (Entry.Origin year now),
              [(entryHash (Entry.Origin year now),
                entryBytes (Entry.Origin year now))]⟩) ∧
    objGet [(entryHash (Entry.Origin year now),
             entryBytes (Entry.Origin year now))]
        (entryHash (Entry.Origin year now))
      = some (entryBytes (Entry.Origin year now)) := by
  refine ⟨?_, ?_, ?_⟩
  · unfold Ledger.init
    rw [if_pos rfl]
  · unfold Ledger.init
    rw [if_neg (by simp), serialize_buf]
    rfl
  · simp [objGet]

/-- C9 (amended): the canonical serialisation is injective on valid `Entry`
values — structurally different valid entries have different encodings, so
their hashes can only agree through a SHA-256 digest collision.  The original
claim's unconditional "distinct content yields distinct hash strings" is
refuted by `claim_C9_counterexample`. -/
theorem claim_C9 (a b : Entry) (ha : a.wf) (hb : b.wf) (hne : a ≠ b) :
    a.encode ≠ b.encode :=
  fun h => hne (encode_injective ha hb h)

theorem claim_C9_witness :
    (Entry.Origin 0 ⟨0⟩).wf ∧ (Entry.Origin 1 ⟨0⟩).wf ∧
    Entry.Origin 0 ⟨0⟩ ≠ Entry.Origin 1 ⟨0⟩ ∧
    (Entry.Origin 0 ⟨0⟩).encode ≠ (Entry.Origin 1 ⟨0⟩).encode :=
  ⟨by decide, by decide, by decide,
   claim_C9 _ _ (by decide) (by decide) (by decide)⟩

/-- C9 (counterexample): two distinct valid entries whose `serialize` runs
return the identical hash string exist — the digest has `2 ^ 256` possible
values while there are more than `2 ^ 256` valid entries, so by pigeonhole
hash uniqueness cannot hold unconditionally (no explicit pair is computable;
this refutes only the claim's universally quantified reading). -/
theorem claim_C9_counterexample :
    ∃ e1 e2 : Entry, e1.wf ∧ e2.wf ∧ e1 ≠ e2 ∧
      Entry.serialize bufWriter [] e1 = .ok (entryBytes e1, entryHash e1) ∧
      Entry.serialize bufWriter [] e2 = .ok (entryBytes e2, entryHash e2) ∧
      entryHash e1 = entryHash e2 := by
  obtain ⟨e1, e2, h1, h2, hne, hsha⟩ := sha256_collision
  exact ⟨e1, e2, h1, h2, hne, serialize_buf e1, serialize_buf e2,
    congrArg bytesToHex hsha⟩

/-- C10: the hash `serialize` returns is the hex SHA-256 digest of the
uncompressed canonical encoding, while the sink receives the gzip-compressed
stream: the stored bytes differ from the hashed stream (and carry the gzip
magic the encoding never starts with), and `deserialize` decodes both the
compressed object file and the raw encoding back to the entry. -/
theorem claim_C10 (e : Entry) (h : e.wf) :
    Entry.serialize bufWriter [] e = .ok (entryBytes e, entryHash e) ∧
    entryHash e = sha256hex e.encode ∧
    entryBytes e = gzipCompress e.encode ∧
    entryBytes e ≠ e.encode ∧
    hasGzipHeader (entryBytes e) = true ∧
    hasGzipHeader e.encode = false ∧
    Entry.deserialize (entryBytes e) = .ok e ∧
    Entry.deserialize e.encode = .ok e := by
  refine ⟨serialize_buf e, rfl, rfl, ?_, ?_, hasGzipHeader_encode e, ?_,
    deserialize_raw_encode h⟩
  · intro hcontra
    have hlen := congrArg List.length hcontra
    rw [show (entryBytes e).length = e.encode.length + 18 from
      gzipCompress_length e.encode] at hlen
    omega
  · exact hasGzipHeader_gzipCompress e.encode
  · exact deserialize_gzip_encode h

theorem claim_C10_witness :
    (Entry.Origin 0 ⟨0⟩).wf ∧
    Entry.deserialize (entryBytes (Entry.Origin 0 ⟨0⟩))
      = .ok (Entry.Origin 0 ⟨0⟩) :=
  ⟨by decide, (claim_C10 (Entry.Origin 0 ⟨0⟩) (by decide)).2.2.2.2.2.2.1⟩

end Bok